import Mathlib

/-!
Verification of the coverage-map engine and histogram statistics of
`ReadBlockProcessor_CoverageBlocks.cpp` (NxtIRFcore).

Shallow embedding conventions:
* `std::vector<std::pair<unsigned int, int>>` becomes `List (Nat × Int)`;
  genomic positions and counters are modelled as unbounded `Nat` and depth
  deltas as unbounded `Int` (all quantities of interest stay far below the
  32/64-bit bounds of the source, so wrap-around is not modelled, with the
  single exception of the `(unsigned int)depth` cast in `updateCoverageHist`,
  which is modelled exactly by `uintCast`).
* `std::map<unsigned int, unsigned int>` (the depth histogram) becomes a
  key-sorted association list `Hist`; iteration order of the source equals
  list order.
* `double` becomes `ℚ`; `std::numeric_limits<double>::quiet_NaN()` and the
  out-of-bounds iterator dereference in `percentileFromHist` become explicit
  constructors of `PResult`.
* `std::sort` (comparator: lexicographic `<` on pairs) is modelled by
  `List.insertionSort` with the lexicographic order: the sorted output of a
  multiset of pairs under a total order is unique, so any correct sort
  models `std::sort` here.
* `std::upper_bound` is modelled by its specified result on inputs that
  satisfy its sortedness precondition (first element greater than the key).
-/

/-! ## Histograms (`std::map<unsigned int, unsigned int>`) -/

/-- A depth histogram: association list from depth to base count, kept
sorted by key (the `std::map` iteration invariant). -/
abbrev Hist := List (Nat × Nat)

/-- `hist[k] += v` on a key-sorted association list (`std::map::operator[]`
followed by `+=`; also models `hist.insert({k,v})` when `v = 0`). -/
def histAdd : Hist → Nat → Nat → Hist
  | [], k, v => [(k, v)]
  | (k', v') :: rest, k, v =>
    if k < k' then (k, v) :: (k', v') :: rest
    else if k = k' then (k', v' + v) :: rest
    else (k', v') :: histAdd rest k v

/-- Value stored at key `k` (0 when absent). -/
def histGet : Hist → Nat → Nat
  | [], _ => 0
  | (k', v') :: rest, k => if k' = k then v' else histGet rest k

/-- Whether key `k` is present. -/
def histHasKey : Hist → Nat → Bool
  | [], _ => false
  | (k', _) :: rest, k => k' = k || histHasKey rest k

/-- Total base count of a histogram (`size` in the statistics functions). -/
def histTotal (h : Hist) : Nat := (h.map (·.2)).sum

/-! ## Histogram statistics (`CoverageBlocks::meanFromHist`,
`percentileFromHist`, `trimmedMeanFromHist`) -/

/-- `CoverageBlocks::meanFromHist`: `Σ depth·count / Σ count`. -/
def meanFromHist (hist : Hist) : ℚ :=
  let total : Nat := (hist.map (fun h => h.1 * h.2)).sum
  let count : Nat := (hist.map (·.2)).sum
  (total : ℚ) / (count : ℚ)

/-- `CoverageBlocks::coverageFromHist`. -/
def coverageFromHist (hist : Hist) : ℚ :=
  if histHasKey hist 0 = false then 1
  else
    let count : Nat := (hist.map (·.2)).sum
    ((count - histGet hist 0 : Nat) : ℚ) / (count : ℚ)

/-- Result of `percentileFromHist`: a numeric value, the
`quiet_NaN` fall-through sentinel, or the out-of-bounds dereference of the
incremented iterator in the interpolation branch (undefined behaviour in
the source, surfaced explicitly here). -/
inductive PResult where
  | num (q : ℚ)
  | undef
  | oobRead
  deriving DecidableEq, Repr

/-- The main loop of `CoverageBlocks::percentileFromHist`. -/
def percentileLoop (pindex : Nat) (pfrac : ℚ) : Nat → Hist → PResult
  | _, [] => PResult.undef
  | count, (d, c) :: rest =>
    let count' := count + c
    if count' ≥ pindex then
      if count' > pindex ∨ pfrac = 0 then PResult.num d
      else
        match rest with
        | [] => PResult.oobRead
        | (d2, _) :: _ => PResult.num ((d : ℚ) - pfrac * d + pfrac * d2)
    else percentileLoop pindex pfrac count' rest

/-- `CoverageBlocks::percentileFromHist`. -/
def percentileFromHist (hist : Hist) (percentile : Nat) : PResult :=
  let size := histTotal hist
  let pf : ℚ := (size + 1) * percentile / 100
  let pindex : Nat := ⌊pf⌋.toNat
  let pfrac : ℚ := pf - pindex
  percentileLoop pindex pfrac 0 hist

/-- The accumulation loop of `CoverageBlocks::trimmedMeanFromHist`
(arguments: `size`, `skip`, running `total`, running `count`, remaining
bins). -/
def trimmedMeanLoop (size skip : Nat) : Nat → Nat → Hist → ℚ
  | total, _, [] => ((total : Nat) : ℚ) / ((size - 2 * skip : Nat) : ℚ)
  | total, count, (d, c) :: rest =>
    if count + c > size - skip then
      if count > skip then
        ((total + d * (size - skip - count) : Nat) : ℚ) / ((size - 2 * skip : Nat) : ℚ)
      else (d : ℚ)
    else
      if count > skip then trimmedMeanLoop size skip (total + d * c) (count + c) rest
      else if count + c > skip then
        trimmedMeanLoop size skip (total + d * (count + c - skip)) (count + c) rest
      else trimmedMeanLoop size skip total (count + c) rest

/-- `CoverageBlocks::trimmedMeanFromHist`. -/
def trimmedMeanFromHist (hist : Hist) (centerPercent : Nat) : ℚ :=
  let size := histTotal hist
  let skip : Nat := ⌊(size : ℚ) * ((100 - (centerPercent : ℚ)) / 2) / 100⌋.toNat
  trimmedMeanLoop size skip 0 0 hist

/-! ## Warning classification (`CoverageBlocksIRFinder::WriteOutput`,
final column) -/

/-- The warning-label cascade at the end of
`CoverageBlocksIRFinder::WriteOutput` (the `double` literal `1.33333333`
and `1.5` are carried over as exact rationals). -/
def warningLabel (JCexact JCleft JCright SPleft SPright : Nat)
    (intronTrimmedMean : ℚ) : String :=
  if (JCexact : ℚ) + intronTrimmedMean < 10 then "LowCover"
  else if JCexact < 4 then "LowSplicing"
  else if (JCexact : ℚ) * (133333333 / 100000000 : ℚ) < ((max JCleft JCright : Nat) : ℚ) then
    "MinorIsoform"
  else if (((max SPleft SPright : Nat) : ℚ) > intronTrimmedMean + 2 ∧
            ((max SPleft SPright : Nat) : ℚ) > intronTrimmedMean * (3 / 2)) ∨
          (((min SPleft SPright : Nat) : ℚ) + 2 < intronTrimmedMean ∧
            ((min SPleft SPright : Nat) : ℚ) * (3 / 2) < intronTrimmedMean) then
    "NonUniformIntronCover"
  else "-"

/-! ## Delta lists and sorting

A per-(channel, chromosome) buffer of `(position, delta)` events:
`std::vector<std::pair<unsigned int, int>>` in the source. -/

/-- The `std::sort` comparator on `std::pair<unsigned int, int>`:
lexicographic order (reflexive closure). -/
def pairLE (a b : Nat × Int) : Prop :=
  a.1 < b.1 ∨ (a.1 = b.1 ∧ a.2 ≤ b.2)

instance : DecidableRel pairLE := fun a b => by
  unfold pairLE; infer_instance

instance : IsTotal (Nat × Int) pairLE := by
  constructor
  intro a b
  rcases Nat.lt_trichotomy a.1 b.1 with h | h | h
  · exact Or.inl (Or.inl h)
  · rcases le_total a.2 b.2 with h2 | h2
    · exact Or.inl (Or.inr ⟨h, h2⟩)
    · exact Or.inr (Or.inr ⟨h.symm, h2⟩)
  · exact Or.inr (Or.inl h)

instance : IsTrans (Nat × Int) pairLE := by
  constructor
  rintro a b c (h1 | ⟨h1, h1'⟩) (h2 | ⟨h2, h2'⟩)
  · exact Or.inl (h1.trans h2)
  · exact Or.inl (h2 ▸ h1)
  · exact Or.inl (h1 ▸ h2)
  · exact Or.inr ⟨h1.trans h2, h1'.trans h2'⟩

/-- `std::sort` on an event buffer. -/
def sortPairs (l : List (Nat × Int)) : List (Nat × Int) :=
  l.insertionSort pairLE

/-- Net delta deposited at position `p` by an event list (the quantity that
determines the depth step function). -/
def netDelta (l : List (Nat × Int)) (p : Nat) : Int :=
  (l.map (fun pd => if pd.1 = p then pd.2 else 0)).sum

/-! ## Canonical forms of a sorted delta list -/

/-- Merge maximal runs of equal positions into one summed entry, keeping
zero sums (helper for reasoning about both collapse loops). -/
def mergeKeepGo (p : Nat) (acc : Int) : List (Nat × Int) → List (Nat × Int)
  | [] => [(p, acc)]
  | (q, e) :: rest =>
    if q = p then mergeKeepGo p (acc + e) rest
    else (p, acc) :: mergeKeepGo q e rest

/-- Merge adjacent equal positions of a list, summing their deltas. -/
def mergeKeep : List (Nat × Int) → List (Nat × Int)
  | [] => []
  | (p, d) :: rest => mergeKeepGo p d rest

/-- Canonical delta list: positions merged and zero net deltas dropped. -/
def mergeDeltas (l : List (Nat × Int)) : List (Nat × Int) :=
  (mergeKeep (sortPairs l)).filter (fun pd => pd.2 ≠ 0)

/-- Run-length encoding of a strictly position-sorted, zero-free delta
list, starting from previous depth `prev`. -/
def rleGo (prev : Int) : List (Nat × Int) → List (Nat × Int)
  | [] => []
  | (p, d) :: rest => (p, prev + d) :: rleGo (prev + d) rest

/-- Like `rleGo` but skipping zero deltas (used for lists where zero
entries were not yet dropped). -/
def rleGoSkip (prev : Int) : List (Nat × Int) → List (Nat × Int)
  | [] => []
  | (p, d) :: rest =>
    if d = 0 then rleGoSkip prev rest
    else (p, prev + d) :: rleGoSkip (prev + d) rest

/-- Canonical run-length sequence of a (merged, zero-free) delta list:
always begins with a position-0 entry. -/
def rleOfDeltas : List (Nat × Int) → List (Nat × Int)
  | [] => [(0, 0)]
  | (p, d) :: t =>
    if p = 0 then (0, d) :: rleGo d t
    else (0, 0) :: rleGo 0 ((p, d) :: t)

/-! ## `FragmentsMap::sort_and_collapse_temp` (per-lane loop) -/

/-- The collapse loop of `sort_and_collapse_temp` over one sorted buffer
(`loci`/`accum` walk; zero accumulations are dropped except for the
unconditional final push). -/
def collapseTempGo (loci : Nat) (accum : Int) : List (Nat × Int) → List (Nat × Int)
  | [] => [(loci, accum)]
  | (p, d) :: rest =>
    if p ≠ loci then
      (if accum ≠ 0 then [(loci, accum)] else []) ++ collapseTempGo p d rest
    else collapseTempGo loci (accum + d) rest

/-- One lane of `sort_and_collapse_temp` after the in-place `std::sort`. -/
def collapseTempLane (s : List (Nat × Int)) : List (Nat × Int) :=
  collapseTempGo 0 0 s

/-! ## `FragmentsMap::sort_and_collapse_final` (per-lane loop) -/

/-- Loop state of the finalization walk: current coordinate `loci`,
pending segment `(old_loci, old_depth)`, running prefix sum `depth`, and
the emitted output. -/
structure FinState where
  loci : Nat
  old_loci : Nat
  depth : Int
  old_depth : Int
  out : List (Nat × Int)
  deriving DecidableEq, Repr

/-- One iteration of the `sort_and_collapse_final` loop body. -/
def finStep (st : FinState) (pd : Nat × Int) : FinState :=
  let st1 :=
    if pd.1 ≠ st.loci then
      if st.depth ≠ st.old_depth then
        { loci := pd.1, old_loci := st.loci, depth := st.depth,
          old_depth := st.depth, out := st.out ++ [(st.old_loci, st.old_depth)] }
      else { st with loci := pd.1 }
    else st
  let st2 := { st1 with depth := st1.depth + pd.2 }
  if pd.1 = 0 then { st2 with old_depth := st2.depth } else st2

/-- The two trailing pushes after the `sort_and_collapse_final` loop. -/
def finFinish (st : FinState) : List (Nat × Int) :=
  let out := st.out ++ [(st.old_loci, st.old_depth)]
  if st.depth ≠ st.old_depth then out ++ [(st.loci, st.depth)] else out

/-- One lane of `FragmentsMap::sort_and_collapse_final`: sort the
accumulated-delta buffer, prefix-sum it emitting changes, and flush. -/
def collapseFinalLane (l : List (Nat × Int)) : List (Nat × Int) :=
  finFinish ((sortPairs l).foldl finStep ⟨0, 0, 0, 0, []⟩)

/-! ## The three strand channels -/

/-- A value per strand channel: index 0 = forward, 1 = reverse,
2 = unstranded (the `[3]` arrays of `FragmentsMap`). -/
structure Chans (α : Type) where
  c0 : α
  c1 : α
  c2 : α
  deriving DecidableEq, Repr

/-- Channel lookup (array indexing; indices ≥ 2 reach slot 2 — the source
only ever addresses the arrays with indices 0, 1 and 2). -/
def Chans.get : Chans α → Nat → α
  | c, 0 => c.c0
  | c, 1 => c.c1
  | c, _ => c.c2

/-- Apply `f` to every channel. -/
def Chans.map (f : α → β) (c : Chans α) : Chans β :=
  ⟨f c.c0, f c.c1, f c.c2⟩

/-- Combine two channel triples pointwise. -/
def Chans.zipWith (f : α → β → γ) (a : Chans α) (b : Chans β) : Chans γ :=
  ⟨f a.c0 b.c0, f a.c1 b.c1, f a.c2 b.c2⟩

/-- Update one channel. -/
def Chans.modify : Chans α → Nat → (α → α) → Chans α
  | c, 0, f => { c with c0 := f c.c0 }
  | c, 1, f => { c with c1 := f c.c1 }
  | c, _, f => { c with c2 := f c.c2 }

/-- The same value in every channel. -/
def Chans.const (a : α) : Chans α := ⟨a, a, a⟩

/-- Saturated channel index (which slot a `Nat` index addresses). -/
def chanIdx (d : Nat) : Nat := min d 2

/-! ## `FragmentsMap` state -/

/-- A per-channel vector of per-chromosome event buffers. -/
abbrev ChanVecs := Chans (List (List (Nat × Int)))

/-- The `FragmentsMap` state: ingest buffers (`temp_chrName_vec_new`),
accumulated-delta buffers (`chrName_vec_new`), finalized run-length
sequences (`chrName_vec_final`), the fragment counter and the
finalization flag. -/
structure FragmentsMap where
  temp_chrName_vec_new : ChanVecs
  chrName_vec_new : ChanVecs
  chrName_vec_final : ChanVecs
  frag_count : Nat
  final_is_sorted : Bool
  deriving DecidableEq, Repr

/-- Lane accessor on a per-chromosome vector. -/
def laneOfVec (vec : List (List (Nat × Int))) (i : Nat) : List (Nat × Int) :=
  vec.getD i []

/-- Ingest-buffer lane of channel `dir`, chromosome `i`. -/
def tempLane (m : FragmentsMap) (dir i : Nat) : List (Nat × Int) :=
  laneOfVec (m.temp_chrName_vec_new.get dir) i

/-- Accumulated-delta lane of channel `dir`, chromosome `i`. -/
def accLane (m : FragmentsMap) (dir i : Nat) : List (Nat × Int) :=
  laneOfVec (m.chrName_vec_new.get dir) i

/-- Finalized lane of channel `dir`, chromosome `i`. -/
def finalLane (m : FragmentsMap) (dir i : Nat) : List (Nat × Int) :=
  laneOfVec (m.chrName_vec_final.get dir) i

/-- `FragmentsMap::ChrMapUpdate` over a registry of `n` chromosomes: every
lane of all three stores is reset to the single placeholder pair `(0,0)`. -/
def ChrMapUpdate (n : Nat) (m : FragmentsMap) : FragmentsMap :=
  { m with
    temp_chrName_vec_new := Chans.const (List.replicate n [((0 : Nat), (0 : Int))])
    chrName_vec_new := Chans.const (List.replicate n [((0 : Nat), (0 : Int))])
    chrName_vec_final := Chans.const (List.replicate n [((0 : Nat), (0 : Int))]) }

/-- A freshly constructed `FragmentsMap` after `ChrMapUpdate` on `n`
chromosomes. -/
def initFM (n : Nat) : FragmentsMap :=
  ChrMapUpdate n ⟨Chans.const [], Chans.const [], Chans.const [], 0, false⟩

/-! ## Ingest (`FragmentsMap::ProcessBlocks`) -/

/-- One aligned fragment (`FragmentBlocks`): per read, its start
coordinate and the relative starts/lengths of its blocks. -/
structure FragmentBlocks where
  readStart : List Nat
  rStarts : List (List Nat)
  rLens : List (List Nat)
  direction : Bool
  chr_id : Nat
  deriving DecidableEq, Repr

/-- Absolute `(start, end)` coordinates of every block of a fragment. -/
def fragBlocks (fb : FragmentBlocks) : List (Nat × Nat) :=
  ((fb.readStart.zip (fb.rStarts.zip fb.rLens)).map (fun r =>
    (r.2.1.zip r.2.2).map (fun sl => (r.1 + sl.1, r.1 + sl.1 + sl.2)))).flatten

/-- The `(position, ±1)` events a fragment deposits on each channel it
touches. -/
def fragEvents (fb : FragmentBlocks) : List (Nat × Int) :=
  ((fragBlocks fb).map (fun se => [(se.1, (1 : Int)), (se.2, (-1 : Int))])).flatten

/-- `push_back` of one event onto the ingest buffer of channel `d`,
chromosome `c` (no-op for an out-of-range chromosome, which in the source
would throw from `std::vector::at`). -/
def pushTemp (d c : Nat) (ev : Nat × Int) (m : FragmentsMap) : FragmentsMap :=
  { m with
    temp_chrName_vec_new :=
      m.temp_chrName_vec_new.modify d
        (fun vec => vec.set c (vec.getD c [] ++ [ev])) }

/-- The four `push_back`s issued per block: start/end events on the
strand channel, then on the unstranded channel. -/
def pushBlock (b : Bool) (c s e : Nat) (m : FragmentsMap) : FragmentsMap :=
  pushTemp 2 c (e, -1)
    (pushTemp 2 c (s, 1)
      (pushTemp (cond b 1 0) c (e, -1)
        (pushTemp (cond b 1 0) c (s, 1) m)))

/-- `FragmentsMap::sort_and_collapse_temp`: per lane, sort the non-empty
ingest buffer, collapse it and append to the accumulated-delta buffer,
then clear the ingest buffer. -/
def sort_and_collapse_temp (m : FragmentsMap) : FragmentsMap :=
  { m with
    chrName_vec_new :=
      Chans.zipWith
        (List.zipWith (fun acc temp =>
          if temp = [] then acc else acc ++ collapseTempLane (sortPairs temp)))
        m.chrName_vec_new m.temp_chrName_vec_new
    temp_chrName_vec_new :=
      m.temp_chrName_vec_new.map (List.map (fun _ => [])) }

/-- `FragmentsMap::ProcessBlocks`: deposit all block events, bump the
fragment counter, and compact every 1,000,000 fragments. -/
def ProcessBlocks (fb : FragmentBlocks) (m : FragmentsMap) : FragmentsMap :=
  let m1 := (fragBlocks fb).foldl
    (fun m se => pushBlock fb.direction fb.chr_id se.1 se.2 m) m
  let m2 := { m1 with frag_count := m1.frag_count + 1 }
  if m2.frag_count % 1000000 = 0 then sort_and_collapse_temp m2 else m2

/-! ## Finalize and merge -/

/-- `FragmentsMap::sort_and_collapse_final`: no-op when already
finalized; otherwise run the pending compaction, rebuild every finalized
lane from its accumulated-delta buffer, clear the buffers and set the
flag. -/
def sort_and_collapse_final (m : FragmentsMap) : FragmentsMap :=
  if m.final_is_sorted then m
  else
    let m1 := sort_and_collapse_temp m
    { m1 with
      chrName_vec_final := m1.chrName_vec_new.map (List.map collapseFinalLane)
      chrName_vec_new := m1.chrName_vec_new.map (List.map (fun _ => []))
      final_is_sorted := true }

/-- `FragmentsMap::Combine`: compact both operands, then concatenate the
accumulated-delta buffers (both accumulating), or the finalized buffers
(both finalized, clearing the flag), or silently do nothing (mixed). -/
def Combine (m child : FragmentsMap) : FragmentsMap :=
  let m1 := sort_and_collapse_temp m
  let c1 := sort_and_collapse_temp child
  if m1.final_is_sorted = false ∧ c1.final_is_sorted = false then
    { m1 with
      chrName_vec_new :=
        Chans.zipWith (List.zipWith (· ++ ·)) m1.chrName_vec_new c1.chrName_vec_new }
  else if m1.final_is_sorted = true ∧ c1.final_is_sorted = true then
    { m1 with
      chrName_vec_final :=
        Chans.zipWith (List.zipWith (· ++ ·)) m1.chrName_vec_final c1.chrName_vec_final
      final_is_sorted := false }
  else m1

/-! ## Ingest histories -/

/-- An operation applied to an accumulating map: ingest one fragment, or
run the periodic compaction. -/
inductive MapOp where
  | process (fb : FragmentBlocks)
  | compact
  deriving DecidableEq, Repr

/-- Apply one operation. -/
def applyOp (m : FragmentsMap) : MapOp → FragmentsMap
  | .process fb => ProcessBlocks fb m
  | .compact => sort_and_collapse_temp m

/-- Run an operation history on a fresh map over `n` chromosomes. -/
def runOps (n : Nat) (ops : List MapOp) : FragmentsMap :=
  ops.foldl applyOp (initFM n)

/-- The fragments ingested by a history, in order. -/
def fragmentsOf (ops : List MapOp) : List FragmentBlocks :=
  ops.filterMap (fun o => match o with | .process fb => some fb | .compact => none)

/-! ## `FragmentsMap::updateCoverageHist` -/

/-- The `(unsigned int)depth` cast. -/
def uintCast (d : Int) : Nat := (d % (2 ^ 32 : Int)).toNat

/-- The inner iterator advance `while (it_pos->first <= cursor && it_pos
!= end) it_pos++`, with fuel `lane.length - idx` (exactly the number of
possible increments). -/
def advanceGo (lane : List (Nat × Int)) (cursor : Nat) : Nat → Nat → Nat
  | idx, 0 => idx
  | idx, fuel + 1 =>
    if h : idx < lane.length then
      if (lane.get ⟨idx, h⟩).1 ≤ cursor then advanceGo lane cursor (idx + 1) fuel
      else idx
    else idx

/-- The main cursor walk of `updateCoverageHist`; `fuel ≥ endPos - cursor`
suffices because the cursor strictly advances each turn. -/
def covWalkGo (lane : List (Nat × Int)) (endPos : Nat) :
    Nat → Hist → Nat → Int → Nat → Hist
  | 0, hist, _, _, _ => hist
  | fuel + 1, hist, idx, depth, cursor =>
    if cursor < endPos then
      let idx2 := advanceGo lane cursor idx (lane.length - idx)
      if h : idx2 < lane.length then
        covWalkGo lane endPos fuel
          (histAdd hist (uintCast depth) (min (lane.get ⟨idx2, h⟩).1 endPos - cursor))
          idx2 (lane.get ⟨idx2, h⟩).2 (lane.get ⟨idx2, h⟩).1
      else histAdd hist (uintCast depth) (endPos - cursor)
    else hist

/-- The backward walk `while (it_pos->first > start && it_pos != begin)
it_pos--`. -/
def walkBack (lane : List (Nat × Int)) : Nat → Nat → Nat
  | 0, _ => 0
  | idx + 1, start =>
    if (lane.getD (idx + 1) (0, 0)).1 > start then walkBack lane idx start
    else idx + 1

/-- `updateCoverageHist` on one finalized lane (after the `refID` range
check): `std::upper_bound` for the first segment past `start`, the
depth-0 shortcut when there is none, else the backward walk and the
cursor walk. -/
def updateCoverageHistLane (lane : List (Nat × Int)) (hist : Hist)
    (start endPos : Nat) : Hist :=
  let ub := (lane.takeWhile (fun pd => pd.1 ≤ start)).length
  if ub = lane.length then histAdd hist 0 (endPos - start)
  else
    let idx := walkBack lane ub start
    covWalkGo lane endPos (endPos - start) hist idx ((lane.getD idx (0, 0)).2) start

/-- `FragmentsMap::updateCoverageHist`: an out-of-range `refID` only
ensures a depth-0 key exists (`hist.insert({0,0})` inserts nothing when
the key is present and adds no count); otherwise query the lane. -/
def updateCoverageHist (m : FragmentsMap) (hist : Hist)
    (start endPos dir refID : Nat) : Hist :=
  if refID ≥ (m.chrName_vec_final.get dir).length then histAdd hist 0 0
  else updateCoverageHistLane (finalLane m dir refID) hist start endPos

/-! ## Accounting definitions used by the verification -/

/-- All per-chromosome vectors of a map have length `n` (the shape
`ChrMapUpdate` establishes and every operation preserves). -/
def GoodShape (n : Nat) (m : FragmentsMap) : Prop :=
  (∀ dir, (m.temp_chrName_vec_new.get dir).length = n) ∧
  (∀ dir, (m.chrName_vec_new.get dir).length = n) ∧
  (∀ dir, (m.chrName_vec_final.get dir).length = n)

/-- Net delta of everything an accumulating lane currently holds
(accumulated-delta buffer plus ingest buffer). -/
def laneNet (m : FragmentsMap) (dir i x : Nat) : Int :=
  netDelta (accLane m dir i ++ tempLane m dir i) x

/-- Net delta a single fragment contributes to lane `(dir, i)` of a map
over `n` chromosomes. -/
def fragNet (n dir i : Nat) (fb : FragmentBlocks) (x : Nat) : Int :=
  if fb.chr_id = i ∧ fb.chr_id < n ∧
      (chanIdx dir = cond fb.direction 1 0 ∨ chanIdx dir = 2) then
    netDelta (fragEvents fb) x
  else 0

/-- Net delta a fragment list contributes to lane `(dir, i)`. -/
def runNet (n dir i : Nat) (fbs : List FragmentBlocks) (x : Nat) : Int :=
  (fbs.map (fun fb => fragNet n dir i fb x)).sum

/-! # Theorems

## Histogram bookkeeping -/

theorem histTotal_histAdd (h : Hist) (k v : Nat) :
    histTotal (histAdd h k v) = histTotal h + v := by
  induction h with
  | nil => simp [histAdd, histTotal]
  | cons kv rest ih =>
    obtain ⟨k', v'⟩ := kv
    by_cases h1 : k < k'
    · simp [histAdd, h1, histTotal]; ring
    · by_cases h2 : k = k'
      · simp [histAdd, h1, h2, histTotal]; ring
      · simp only [histAdd, if_neg h1, if_neg h2, histTotal, List.map_cons, List.sum_cons]
        have := ih
        simp only [histTotal] at this
        omega

theorem histGet_eq_zero_of_lt (h : Hist) (k : Nat)
    (hk : ∀ e ∈ h, k < e.1) : histGet h k = 0 := by
  induction h with
  | nil => rfl
  | cons kv rest ih =>
    have hne : kv.1 ≠ k := by
      have := hk kv (by simp)
      omega
    obtain ⟨k', v'⟩ := kv
    simp only [histGet, if_neg hne]
    exact ih (fun e he => hk e (by simp [he]))

theorem histGet_histAdd_same (h : Hist) (k v : Nat)
    (hs : List.Pairwise (fun a b : Nat × Nat => a.1 < b.1) h) :
    histGet (histAdd h k v) k = histGet h k + v := by
  induction h with
  | nil => simp [histAdd, histGet]
  | cons kv rest ih =>
    obtain ⟨k', v'⟩ := kv
    rcases hs with _ | ⟨hk', hrest⟩
    by_cases h1 : k < k'
    · have hz : histGet rest k = 0 :=
        histGet_eq_zero_of_lt rest k (fun e he => h1.trans (hk' e he))
      simp [histAdd, h1, histGet, hz, Nat.ne_of_lt h1, (Nat.ne_of_lt h1).symm]
    · by_cases h2 : k = k'
      · subst h2
        simp [histAdd, h1, histGet, Nat.add_comm]
      · have hne : k' ≠ k := fun hh => h2 hh.symm
        simp only [histAdd, if_neg h1, if_neg h2, histGet, if_neg hne]
        exact ih hrest

/-! ## C8: trimmed mean at 100% equals the mean -/

theorem trimmedMeanLoop_skip_zero :
    ∀ (hist : Hist) (size total count : Nat),
      count + histTotal hist ≤ size →
      trimmedMeanLoop size 0 total count hist =
        ((total + (hist.map (fun h => h.1 * h.2)).sum : Nat) : ℚ) / (size : ℚ) := by
  intro hist
  induction hist with
  | nil => intro size total count _; simp [trimmedMeanLoop]
  | cons dc rest ih =>
    intro size total count hle
    obtain ⟨d, c⟩ := dc
    have hsz : count + c + histTotal rest ≤ size := by
      simp only [histTotal, List.map_cons, List.sum_cons] at hle ⊢
      omega
    have hnb : ¬(count + c > size - 0) := by omega
    by_cases hc : count > 0
    · simp only [trimmedMeanLoop, if_neg hnb, if_pos hc]
      rw [ih size (total + d * c) (count + c) hsz]
      congr 2
      simp
      ring
    · have hc0 : count = 0 := by omega
      subst hc0
      by_cases hcc : 0 + c > 0
      · simp only [trimmedMeanLoop, if_neg hnb, if_neg hc, if_pos hcc]
        rw [ih size (total + d * (0 + c - 0)) (0 + c) hsz]
        congr 2
        simp
        ring
      · have hcz : c = 0 := by omega
        subst hcz
        simp only [trimmedMeanLoop, if_neg hnb, if_neg hc, if_neg hcc]
        rw [ih size total (0 + 0) (by simpa using hsz)]
        congr 2
        simp

/-- C8: for every histogram with at least one counted base,
`trimmedMeanFromHist hist 100` equals `meanFromHist hist`: with
`centerPercent = 100` the computed `skip` is 0, so the loop accumulates
every bin in full and divides by the whole size — exactly the mean. -/
theorem trimmedMean_100_eq_mean (hist : Hist) (hne : 0 < histTotal hist) :
    trimmedMeanFromHist hist 100 = meanFromHist hist := by
  unfold trimmedMeanFromHist meanFromHist
  have hskip : (⌊(histTotal hist : ℚ) * ((100 - ((100 : Nat) : ℚ)) / 2) / 100⌋).toNat = 0 := by
    norm_num
  simp only [hskip]
  rw [trimmedMeanLoop_skip_zero hist (histTotal hist) 0 0 (by omega)]
  simp [histTotal]

/-- Witness for C8 at the histogram `{1 ↦ 50, 2 ↦ 50}` of the spec's
end-to-end example. -/
theorem trimmedMean_100_eq_mean_witness :
    0 < histTotal [(1, 50), (2, 50)] ∧
      trimmedMeanFromHist [(1, 50), (2, 50)] 100 = meanFromHist [(1, 50), (2, 50)] :=
  ⟨by decide, trimmedMean_100_eq_mean [(1, 50), (2, 50)] (by decide)⟩

/-! ## C9 / C10: percentile boundary behaviour -/

theorem percentileLoop_exhausted :
    ∀ (hist : Hist) (pindex : Nat) (pfrac : ℚ) (count : Nat),
      count + histTotal hist < pindex →
      percentileLoop pindex pfrac count hist = PResult.undef := by
  intro hist
  induction hist with
  | nil => intro pindex pfrac count _; rfl
  | cons dc rest ih =>
    intro pindex pfrac count hlt
    obtain ⟨d, c⟩ := dc
    have h1 : count + c + histTotal rest < pindex := by
      simp only [histTotal, List.map_cons, List.sum_cons] at hlt ⊢
      omega
    have h2 : ¬(count + c ≥ pindex) := by omega
    simp only [percentileLoop, if_neg h2]
    exact ih pindex pfrac (count + c) h1

/-- The `percentile = 100` index is `size + 1`, which the running count
(bounded by `size`) never reaches, so the loop falls through to the
`quiet_NaN` sentinel. -/
theorem percentileFromHist_100 (hist : Hist) :
    percentileFromHist hist 100 = PResult.undef := by
  unfold percentileFromHist
  have h1 : ((histTotal hist : ℚ) + 1) * ((100 : Nat) : ℚ) / 100
      = ((histTotal hist + 1 : Nat) : ℚ) := by
    push_cast
    field_simp
  simp only [h1, Int.floor_natCast, Int.toNat_natCast]
  exact percentileLoop_exhausted hist (histTotal hist + 1) _ 0 (by omega)

/-- The `percentile = 0` index and fraction are both 0, so the very first
bin satisfies `count ≥ 0` with zero fraction and its depth is returned. -/
theorem percentileFromHist_0 (hist : Hist) (hne : hist ≠ []) :
    ∃ q : ℚ, percentileFromHist hist 0 = PResult.num q := by
  obtain ⟨⟨d, c⟩, rest, rfl⟩ : ∃ dc rest, hist = dc :: rest := by
    cases hist with
    | nil => exact absurd rfl hne
    | cons dc rest => exact ⟨dc, rest, rfl⟩
  refine ⟨(d : ℚ), ?_⟩
  unfold percentileFromHist
  have h1 : ((histTotal ((d, c) :: rest) : ℚ) + 1) * ((0 : Nat) : ℚ) / 100 = 0 := by
    norm_num
  simp only [h1, percentileLoop]
  norm_num

/-- C9 counterexample: on the single-base histogram `{5 ↦ 1}` (non-empty),
`percentile(100)` returns the undefined sentinel, not a numeric depth,
while `percentile(0)` does return a number. -/
theorem percentile_100_not_numeric_counterexample :
    percentileFromHist [(5, 1)] 100 = PResult.undef ∧
      (∀ q : ℚ, percentileFromHist [(5, 1)] 100 ≠ PResult.num q) ∧
      percentileFromHist [(5, 1)] 0 = PResult.num 5 := by
  refine ⟨by norm_num [percentileFromHist, percentileLoop, histTotal], ?_,
    by norm_num [percentileFromHist, percentileLoop, histTotal]⟩
  intro q
  rw [percentileFromHist_100]
  exact fun h => PResult.noConfusion h

/-- C9 amended: on every non-empty histogram `percentile(0)` returns a
numeric depth (the first bin), but `percentile(100)` always returns the
undefined sentinel because its index `size + 1` exceeds the total count. -/
theorem percentile_boundary_cases (hist : Hist) (hne : hist ≠ []) :
    (∃ q : ℚ, percentileFromHist hist 0 = PResult.num q) ∧
      percentileFromHist hist 100 = PResult.undef :=
  ⟨percentileFromHist_0 hist hne, percentileFromHist_100 hist⟩

/-- Witness for the amended C9 on `{5 ↦ 1}`. -/
theorem percentile_boundary_cases_witness :
    ([(5, 1)] : Hist) ≠ [] ∧
      ((∃ q : ℚ, percentileFromHist [(5, 1)] 0 = PResult.num q) ∧
        percentileFromHist [(5, 1)] 100 = PResult.undef) :=
  ⟨by decide, percentile_boundary_cases [(5, 1)] (by decide)⟩

/-- C10: on the histogram `{5 ↦ 2}` (total base count 2), `percentile(75)`
reaches the interpolation branch exactly at the last bin (running count
`2 = index`, fraction `1/4 ≠ 0`); the source then increments the iterator
past the end and dereferences it — the modelled `oobRead` outcome. -/
theorem percentile_interpolation_oob :
    percentileFromHist [(5, 2)] 75 = PResult.oobRead := by
  norm_num [percentileFromHist, percentileLoop, histTotal]
  intro h
  have h2 : (Int.toNat 2 : Nat) = 2 := rfl
  rw [h2] at h
  norm_num at h

/-! ## C6: classification of regions with `JCexact = 2` -/

/-- C6 counterexample: a region with `JCexact = 2` but trimmed-mean depth
0 satisfies the higher-precedence test `JCexact + intronTrimmedMean < 10`
and is labelled `"LowCover"`, not `"LowSplicing"`. -/
theorem warningLabel_JCexact2_counterexample :
    warningLabel 2 0 0 0 0 0 = "LowCover" ∧
      warningLabel 2 0 0 0 0 0 ≠ "LowSplicing" := by
  constructor
  · norm_num [warningLabel]
  · norm_num [warningLabel]
    decide

/-- C6 amended: a region with `JCexact = 2` is labelled `"LowSplicing"`
regardless of `JCleft`, `JCright`, `SPleft`, `SPright`, provided it
escapes the preceding `"LowCover"` test, i.e. provided
`JCexact + intronTrimmedMean ≥ 10`. -/
theorem warningLabel_JCexact2 (JCleft JCright SPleft SPright : Nat)
    (tm : ℚ) (h : ¬(((2 : Nat) : ℚ) + tm < 10)) :
    warningLabel 2 JCleft JCright SPleft SPright tm = "LowSplicing" := by
  unfold warningLabel
  rw [if_neg h, if_pos (by norm_num)]

/-- Witness for the amended C6 with extreme other metrics. -/
theorem warningLabel_JCexact2_witness :
    ¬(((2 : Nat) : ℚ) + 8 < 10) ∧
      warningLabel 2 999 999 999 999 8 = "LowSplicing" :=
  ⟨by norm_num, warningLabel_JCexact2 999 999 999 999 8 (by norm_num)⟩

/-! ## Net-delta bookkeeping -/

theorem netDelta_cons (pd : Nat × Int) (rest : List (Nat × Int)) (x : Nat) :
    netDelta (pd :: rest) x = (if pd.1 = x then pd.2 else 0) + netDelta rest x := by
  simp [netDelta]

theorem netDelta_append (l₁ l₂ : List (Nat × Int)) (x : Nat) :
    netDelta (l₁ ++ l₂) x = netDelta l₁ x + netDelta l₂ x := by
  simp [netDelta]

theorem netDelta_perm {l₁ l₂ : List (Nat × Int)} (h : l₁.Perm l₂) (x : Nat) :
    netDelta l₁ x = netDelta l₂ x :=
  List.Perm.sum_eq (List.Perm.map _ h)

theorem netDelta_sortPairs (l : List (Nat × Int)) (x : Nat) :
    netDelta (sortPairs l) x = netDelta l x :=
  netDelta_perm (List.perm_insertionSort pairLE l) x

theorem netDelta_eq_zero_of_lt (l : List (Nat × Int)) (x : Nat)
    (h : ∀ e ∈ l, x < e.1) : netDelta l x = 0 := by
  induction l with
  | nil => rfl
  | cons pd rest ih =>
    rw [netDelta_cons]
    have h1 : pd.1 ≠ x := by
      have := h pd (by simp)
      omega
    rw [if_neg h1, ih (fun e he => h e (by simp [he]))]
    ring

theorem netDelta_mergeKeepGo (rest : List (Nat × Int)) (p : Nat) (acc : Int) (x : Nat) :
    netDelta (mergeKeepGo p acc rest) x = (if p = x then acc else 0) + netDelta rest x := by
  induction rest generalizing p acc with
  | nil => simp [mergeKeepGo, netDelta]
  | cons qe rest ih =>
    obtain ⟨q, e⟩ := qe
    by_cases hq : q = p
    · subst hq
      rw [show mergeKeepGo q acc ((q, e) :: rest) = mergeKeepGo q (acc + e) rest from by
        simp [mergeKeepGo]]
      rw [ih, netDelta_cons]
      by_cases hx : q = x <;> simp [hx] <;> try ring
    · rw [show mergeKeepGo p acc ((q, e) :: rest) = (p, acc) :: mergeKeepGo q e rest from by
        simp [mergeKeepGo, hq]]
      rw [netDelta_cons, ih, netDelta_cons]

theorem netDelta_mergeKeep (l : List (Nat × Int)) (x : Nat) :
    netDelta (mergeKeep l) x = netDelta l x := by
  cases l with
  | nil => rfl
  | cons pd rest =>
    obtain ⟨p, d⟩ := pd
    rw [show mergeKeep ((p, d) :: rest) = mergeKeepGo p d rest from rfl]
    rw [netDelta_mergeKeepGo, netDelta_cons]

theorem netDelta_filter_nonzero (l : List (Nat × Int)) (x : Nat) :
    netDelta (l.filter (fun pd => pd.2 ≠ 0)) x = netDelta l x := by
  induction l with
  | nil => rfl
  | cons pd rest ih =>
    rw [List.filter_cons]
    by_cases hz : pd.2 = 0
    · rw [if_neg (by simp [hz]), ih, netDelta_cons]
      simp [hz]
    · rw [if_pos (by simp [hz]), netDelta_cons, netDelta_cons, ih]

theorem netDelta_mergeDeltas (l : List (Nat × Int)) (x : Nat) :
    netDelta (mergeDeltas l) x = netDelta l x := by
  unfold mergeDeltas
  rw [netDelta_filter_nonzero, netDelta_mergeKeep, netDelta_sortPairs]

theorem netDelta_collapseTempGo (rest : List (Nat × Int)) (p : Nat) (acc : Int) (x : Nat) :
    netDelta (collapseTempGo p acc rest) x = (if p = x then acc else 0) + netDelta rest x := by
  induction rest generalizing p acc with
  | nil => simp [collapseTempGo, netDelta]
  | cons qe rest ih =>
    obtain ⟨q, e⟩ := qe
    by_cases hq : q ≠ p
    · rw [show collapseTempGo p acc ((q, e) :: rest)
          = (if acc ≠ 0 then [(p, acc)] else []) ++ collapseTempGo q e rest from by
        simp [collapseTempGo, hq]]
      rw [netDelta_append, ih, netDelta_cons]
      by_cases ha : acc = 0
      · simp [ha, netDelta]
      · rw [if_pos ha, netDelta_cons]
        simp [netDelta]
        try ring
    · push_neg at hq
      subst hq
      rw [show collapseTempGo q acc ((q, e) :: rest) = collapseTempGo q (acc + e) rest from by
        simp [collapseTempGo]]
      rw [ih, netDelta_cons]
      by_cases hx : q = x <;> simp [hx] <;> try ring

theorem netDelta_collapseTempLane (s : List (Nat × Int)) (x : Nat) :
    netDelta (collapseTempLane s) x = netDelta s x := by
  unfold collapseTempLane
  rw [netDelta_collapseTempGo]
  simp

/-! ## Sortedness of the canonical forms -/

theorem sortPairs_pairwise_le (l : List (Nat × Int)) :
    List.Pairwise (fun a b : Nat × Int => a.1 ≤ b.1) (sortPairs l) := by
  have h := List.sorted_insertionSort pairLE l
  exact h.imp (fun hab => by
    rcases hab with h1 | ⟨h1, _⟩
    · exact Nat.le_of_lt h1
    · exact Nat.le_of_eq h1)

theorem mergeKeepGo_sorted (rest : List (Nat × Int)) :
    ∀ (p : Nat) (acc : Int),
      (∀ e ∈ rest, p ≤ e.1) →
      List.Pairwise (fun a b : Nat × Int => a.1 ≤ b.1) rest →
      List.Pairwise (fun a b : Nat × Int => a.1 < b.1) (mergeKeepGo p acc rest) ∧
        ∀ e ∈ mergeKeepGo p acc rest, p ≤ e.1 := by
  induction rest with
  | nil =>
    intro p acc _ _
    constructor
    · simp [mergeKeepGo]
    · simp [mergeKeepGo]
  | cons qe rest ih =>
    intro p acc hge hpw
    obtain ⟨q, e⟩ := qe
    have hq : p ≤ q := hge (q, e) (by simp)
    rcases hpw with _ | ⟨hq', hrest⟩
    by_cases hqp : q = p
    · subst hqp
      rw [show mergeKeepGo q acc ((q, e) :: rest) = mergeKeepGo q (acc + e) rest from by
        simp [mergeKeepGo]]
      exact ih q (acc + e) (fun y hy => hq' y hy) hrest
    · rw [show mergeKeepGo p acc ((q, e) :: rest) = (p, acc) :: mergeKeepGo q e rest from by
        simp [mergeKeepGo, hqp]]
      have hpq : p < q := Nat.lt_of_le_of_ne hq (fun hh => hqp hh.symm)
      obtain ⟨hs, hm⟩ := ih q e (fun y hy => hq' y hy) hrest
      constructor
      · exact List.Pairwise.cons (fun y hy => Nat.lt_of_lt_of_le hpq (hm y hy)) hs
      · intro y hy
        rcases List.mem_cons.mp hy with rfl | hy
        · exact Nat.le_refl p
        · exact Nat.le_trans (Nat.le_of_lt hpq) (hm y hy)

theorem mergeKeep_sorted (l : List (Nat × Int))
    (h : List.Pairwise (fun a b : Nat × Int => a.1 ≤ b.1) l) :
    List.Pairwise (fun a b : Nat × Int => a.1 < b.1) (mergeKeep l) := by
  cases l with
  | nil => simp [mergeKeep]
  | cons pd rest =>
    obtain ⟨p, d⟩ := pd
    rcases h with _ | ⟨hp, hrest⟩
    exact (mergeKeepGo_sorted rest p d (fun y hy => hp y hy) hrest).1

theorem mergeDeltas_sorted (l : List (Nat × Int)) :
    List.Pairwise (fun a b : Nat × Int => a.1 < b.1) (mergeDeltas l) :=
  (mergeKeep_sorted (sortPairs l) (sortPairs_pairwise_le l)).filter _

theorem mergeDeltas_nonzero (l : List (Nat × Int)) :
    ∀ e ∈ mergeDeltas l, e.2 ≠ 0 := by
  intro e he
  have := List.of_mem_filter he
  simpa using this

/-- `netDelta` of the empty list. -/
theorem netDelta_nil (x : Nat) : netDelta [] x = 0 := rfl

/-- Two strictly position-sorted, zero-free delta lists with the same net
delta at every position are equal. -/
theorem strictSorted_netDelta_eq :
    ∀ (m₁ m₂ : List (Nat × Int)),
      List.Pairwise (fun a b : Nat × Int => a.1 < b.1) m₁ →
      List.Pairwise (fun a b : Nat × Int => a.1 < b.1) m₂ →
      (∀ e ∈ m₁, e.2 ≠ 0) → (∀ e ∈ m₂, e.2 ≠ 0) →
      (∀ x, netDelta m₁ x = netDelta m₂ x) → m₁ = m₂ := by
  intro m₁
  induction m₁ with
  | nil =>
    intro m₂ _ hs₂ _ hz₂ hnd
    cases m₂ with
    | nil => rfl
    | cons qe t₂ =>
      exfalso
      obtain ⟨q, e⟩ := qe
      rcases hs₂ with _ | ⟨hq, _⟩
      have h := hnd q
      rw [netDelta_cons, netDelta_eq_zero_of_lt t₂ q (fun y hy => hq y hy),
        netDelta_nil] at h
      simp at h
      exact hz₂ (q, e) (by simp) h.symm
  | cons pd t₁ ih =>
    intro m₂ hs₁ hs₂ hz₁ hz₂ hnd
    obtain ⟨p, d⟩ := pd
    cases m₂ with
    | nil =>
      exfalso
      rcases hs₁ with _ | ⟨hp, _⟩
      have h := hnd p
      rw [netDelta_cons, netDelta_eq_zero_of_lt t₁ p (fun y hy => hp y hy),
        netDelta_nil] at h
      simp at h
      exact hz₁ (p, d) (by simp) h
    | cons qe t₂ =>
      obtain ⟨q, e⟩ := qe
      rcases hs₁ with _ | ⟨hp, hs₁'⟩
      rcases hs₂ with _ | ⟨hq, hs₂'⟩
      rcases Nat.lt_trichotomy p q with hpq | hpq | hpq
      · exfalso
        have h := hnd p
        rw [netDelta_cons, netDelta_cons,
          netDelta_eq_zero_of_lt t₁ p (fun y hy => hp y hy),
          netDelta_eq_zero_of_lt t₂ p (fun y hy => Nat.lt_trans hpq (hq y hy))] at h
        have hqp : q ≠ p := by omega
        simp [hqp] at h
        exact hz₁ (p, d) (by simp) h
      · subst hpq
        have hde : d = e := by
          have h := hnd p
          rw [netDelta_cons, netDelta_cons,
            netDelta_eq_zero_of_lt t₁ p (fun y hy => hp y hy),
            netDelta_eq_zero_of_lt t₂ p (fun y hy => hq y hy)] at h
          simpa using h
        subst hde
        have ht : t₁ = t₂ := by
          apply ih t₂ hs₁' hs₂'
            (fun y hy => hz₁ y (by simp [hy])) (fun y hy => hz₂ y (by simp [hy]))
          intro x
          by_cases hx : x = p
          · subst hx
            rw [netDelta_eq_zero_of_lt t₁ x (fun y hy => hp y hy),
              netDelta_eq_zero_of_lt t₂ x (fun y hy => hq y hy)]
          · have h := hnd x
            rw [netDelta_cons, netDelta_cons] at h
            have hpx : p ≠ x := fun hh => hx hh.symm
            simpa [hpx] using h
        rw [ht]
      · exfalso
        have h := hnd q
        rw [netDelta_cons, netDelta_cons,
          netDelta_eq_zero_of_lt t₁ q (fun y hy => Nat.lt_trans hpq (hp y hy)),
          netDelta_eq_zero_of_lt t₂ q (fun y hy => hq y hy)] at h
        have hpq' : p ≠ q := by omega
        simp [hpq'] at h
        exact hz₂ (q, e) (by simp) h.symm

/-! ## The finalization walk computes the canonical run-length form -/

theorem finStep_same_pos (st : FinState) (p : Nat) (a b : Int) :
    finStep (finStep st (p, a)) (p, b) = finStep st (p, a + b) := by
  unfold finStep
  by_cases h3 : p = 0
  · subst h3
    by_cases h1 : (0 : Nat) ≠ st.loci <;> by_cases h2 : st.depth ≠ st.old_depth <;>
      simp [h1, h2, add_assoc]
  · by_cases h1 : p ≠ st.loci <;> by_cases h2 : st.depth ≠ st.old_depth <;>
      simp [h1, h2, h3, add_assoc]

theorem finStep_zero_first (st : FinState) (d : Int) (h : st.loci = 0) :
    finStep st (0, d) =
      { st with depth := st.depth + d, old_depth := st.depth + d } := by
  unfold finStep
  simp [h]

theorem finStep_new_pos (st : FinState) (p : Nat) (d : Int)
    (h1 : p ≠ st.loci) (h0 : p ≠ 0) :
    finStep st (p, d) =
      if st.depth ≠ st.old_depth then
        ⟨p, st.loci, st.depth + d, st.depth, st.out ++ [(st.old_loci, st.old_depth)]⟩
      else ⟨p, st.old_loci, st.depth + d, st.old_depth, st.out⟩ := by
  unfold finStep
  by_cases h2 : st.depth ≠ st.old_depth <;> simp [h1, h2, h0]

/-- Merging a run of equal positions before the finalization walk does not
change the walk: consecutive events at one coordinate only accumulate into
`depth` (and re-seed at coordinate 0), which commutes with pre-summing. -/
theorem foldl_finStep_mergeKeepGo :
    ∀ (rest : List (Nat × Int)) (p : Nat) (acc : Int) (st : FinState),
      List.foldl finStep st ((p, acc) :: rest) =
        List.foldl finStep st (mergeKeepGo p acc rest) := by
  intro rest
  induction rest with
  | nil => intro p acc st; rfl
  | cons qe rest ih =>
    intro p acc st
    obtain ⟨q, e⟩ := qe
    by_cases hq : q = p
    · subst hq
      rw [show mergeKeepGo q acc ((q, e) :: rest) = mergeKeepGo q (acc + e) rest from by
        simp [mergeKeepGo]]
      rw [← ih q (acc + e) st]
      show List.foldl finStep (finStep (finStep st (q, acc)) (q, e)) rest =
        List.foldl finStep (finStep st (q, acc + e)) rest
      rw [finStep_same_pos]
    · rw [show mergeKeepGo p acc ((q, e) :: rest) = (p, acc) :: mergeKeepGo q e rest from by
        simp [mergeKeepGo, hq]]
      exact ih q e (finStep st (p, acc))

theorem foldl_finStep_mergeKeep (s : List (Nat × Int)) (st : FinState) :
    List.foldl finStep st s = List.foldl finStep st (mergeKeep s) := by
  cases s with
  | nil => rfl
  | cons pd rest =>
    obtain ⟨p, d⟩ := pd
    exact foldl_finStep_mergeKeepGo rest p d st

theorem finFinish_eval (st : FinState) :
    finFinish st =
      if st.depth ≠ st.old_depth then
        st.out ++ [(st.old_loci, st.old_depth), (st.loci, st.depth)]
      else st.out ++ [(st.old_loci, st.old_depth)] := by
  unfold finFinish
  by_cases h : st.depth ≠ st.old_depth <;> simp [h]

/-- On a strictly position-sorted remainder beyond the current coordinate,
the finalization walk emits the pending segment, the current segment when
its depth changed, and then one segment per depth change. -/
theorem foldl_finStep_rle :
    ∀ (t : List (Nat × Int)) (l ol : Nat) (D OD : Int) (out : List (Nat × Int)),
      List.Pairwise (fun a b : Nat × Int => a.1 < b.1) t →
      (∀ e ∈ t, l < e.1) →
      finFinish (List.foldl finStep ⟨l, ol, D, OD, out⟩ t) =
        if D = OD then out ++ [(ol, OD)] ++ rleGoSkip D t
        else out ++ [(ol, OD), (l, D)] ++ rleGoSkip D t := by
  intro t
  induction t with
  | nil =>
    intro l ol D OD out _ _
    rw [show List.foldl finStep ⟨l, ol, D, OD, out⟩ [] = ⟨l, ol, D, OD, out⟩ from rfl,
      finFinish_eval]
    by_cases h : D = OD
    · simp [h, rleGoSkip]
    · simp [h, rleGoSkip]
  | cons pd rest ih =>
    intro l ol D OD out hpw hgt
    obtain ⟨p, d⟩ := pd
    have hp : l < p := hgt (p, d) (by simp)
    rcases hpw with _ | ⟨hrest_gt, hrest_pw⟩
    have hp0 : p ≠ 0 := by omega
    have hpl : p ≠ l := by omega
    rw [List.foldl_cons, finStep_new_pos ⟨l, ol, D, OD, out⟩ p d hpl hp0]
    by_cases hDOD : D = OD
    · rw [if_neg (by simp [hDOD])]
      rw [ih p ol (D + d) OD out hrest_pw (fun e he => hrest_gt e he)]
      by_cases hd : d = 0
      · subst hd
        simp [hDOD, rleGoSkip]
      · have hne : ¬(D + d = OD) := by
          rw [hDOD]
          intro hh
          exact hd (by omega)
        rw [if_neg hne, if_pos hDOD]
        simp [rleGoSkip, hd]
    · rw [if_pos (by simp [hDOD])]
      rw [ih p l (D + d) D (out ++ [(ol, OD)]) hrest_pw (fun e he => hrest_gt e he)]
      by_cases hd : d = 0
      · subst hd
        simp [hDOD, rleGoSkip]
      · have hne : ¬(D + d = D) := by
          intro hh
          exact hd (by omega)
        rw [if_neg hne, if_neg hDOD]
        simp [rleGoSkip, hd]

theorem rleGoSkip_eq_rleGo_filter :
    ∀ (t : List (Nat × Int)) (prev : Int),
      rleGoSkip prev t = rleGo prev (t.filter (fun pd => pd.2 ≠ 0)) := by
  intro t
  induction t with
  | nil => intro prev; rfl
  | cons qe rest ih =>
    intro prev
    obtain ⟨q, e⟩ := qe
    rw [List.filter_cons]
    by_cases he : e = 0
    · rw [if_neg (by simp [he])]
      rw [show rleGoSkip prev ((q, e) :: rest) = rleGoSkip prev rest from by
        simp [rleGoSkip, he]]
      exact ih prev
    · rw [if_pos (by simp [he])]
      rw [show rleGoSkip prev ((q, e) :: rest) = (q, prev + e) :: rleGoSkip (prev + e) rest from by
        simp [rleGoSkip, he]]
      rw [show rleGo prev ((q, e) :: List.filter (fun pd => pd.2 ≠ 0) rest)
          = (q, prev + e) :: rleGo (prev + e) (List.filter (fun pd => pd.2 ≠ 0) rest) from rfl]
      rw [ih (prev + e)]

theorem rleOfDeltas_pos (m : List (Nat × Int)) (h : ∀ e ∈ m, e.1 ≠ 0) :
    rleOfDeltas m = (0, 0) :: rleGo 0 m := by
  cases m with
  | nil => rfl
  | cons pd t =>
    obtain ⟨p, d⟩ := pd
    have hp : p ≠ 0 := h (p, d) (by simp)
    simp [rleOfDeltas, hp]

theorem finFinish_foldl_strict (M : List (Nat × Int))
    (hs : List.Pairwise (fun a b : Nat × Int => a.1 < b.1) M) :
    finFinish (List.foldl finStep ⟨0, 0, 0, 0, []⟩ M) =
      rleOfDeltas (M.filter (fun pd => pd.2 ≠ 0)) := by
  cases M with
  | nil => rfl
  | cons pd t =>
    obtain ⟨p, d⟩ := pd
    rcases hs with _ | ⟨hgt, hpw⟩
    by_cases hp : p = 0
    · subst hp
      rw [List.foldl_cons, finStep_zero_first ⟨0, 0, 0, 0, []⟩ d rfl]
      rw [foldl_finStep_rle t 0 0 (0 + d) (0 + d) [] hpw (fun e he => hgt e he)]
      rw [if_pos rfl, rleGoSkip_eq_rleGo_filter, List.filter_cons]
      by_cases hd : d = 0
      · rw [if_neg (by simp [hd])]
        rw [rleOfDeltas_pos _ (fun e he => by
          have := List.of_mem_filter he
          have hmem := List.mem_of_mem_filter he
          have := hgt e hmem
          omega)]
        simp [hd]
      · rw [if_pos (by simp [hd])]
        rw [show rleOfDeltas ((0, d) :: List.filter (fun pd => pd.2 ≠ 0) t)
            = (0, d) :: rleGo d (List.filter (fun pd => pd.2 ≠ 0) t) from by
          simp [rleOfDeltas]]
        simp
    · have hall : ∀ e ∈ (p, d) :: t, 0 < e.1 := by
        intro e he
        rcases List.mem_cons.mp he with rfl | he
        · omega
        · have := hgt e he
          omega
      rw [foldl_finStep_rle ((p, d) :: t) 0 0 0 0 []
        (List.Pairwise.cons hgt hpw) hall]
      rw [if_pos rfl, rleGoSkip_eq_rleGo_filter]
      rw [rleOfDeltas_pos _ (fun e he => by
        have hmem := List.mem_of_mem_filter he
        have := hall e hmem
        omega)]
      simp

/-- The central characterization: one lane of `sort_and_collapse_final`
produces exactly the canonical run-length encoding of the merged,
zero-free delta list of its input. -/
theorem collapseFinalLane_eq (l : List (Nat × Int)) :
    collapseFinalLane l = rleOfDeltas (mergeDeltas l) := by
  unfold collapseFinalLane mergeDeltas
  rw [foldl_finStep_mergeKeep (sortPairs l) ⟨0, 0, 0, 0, []⟩]
  exact finFinish_foldl_strict _ (mergeKeep_sorted _ (sortPairs_pairwise_le l))

/-- Finalization depends only on the net-delta function of the lane
content. -/
theorem collapseFinalLane_congr (l₁ l₂ : List (Nat × Int))
    (h : ∀ x, netDelta l₁ x = netDelta l₂ x) :
    collapseFinalLane l₁ = collapseFinalLane l₂ := by
  rw [collapseFinalLane_eq, collapseFinalLane_eq]
  congr 1
  exact strictSorted_netDelta_eq (mergeDeltas l₁) (mergeDeltas l₂)
    (mergeDeltas_sorted l₁) (mergeDeltas_sorted l₂)
    (mergeDeltas_nonzero l₁) (mergeDeltas_nonzero l₂)
    (fun x => by rw [netDelta_mergeDeltas, netDelta_mergeDeltas]; exact h x)

/-! ## C2: shape invariants of a finalized lane -/

theorem rleGo_mem_fst :
    ∀ (t : List (Nat × Int)) (prev : Int) (y : Nat × Int),
      y ∈ rleGo prev t → ∃ z ∈ t, y.1 = z.1 := by
  intro t
  induction t with
  | nil => intro prev y hy; simp [rleGo] at hy
  | cons qe rest ih =>
    intro prev y hy
    obtain ⟨q, e⟩ := qe
    rw [show rleGo prev ((q, e) :: rest) = (q, prev + e) :: rleGo (prev + e) rest from rfl]
      at hy
    rcases List.mem_cons.mp hy with rfl | hy
    · exact ⟨(q, e), by simp⟩
    · obtain ⟨z, hz, hyz⟩ := ih (prev + e) y hy
      exact ⟨z, by simp [hz], hyz⟩

theorem rleGo_pairwise_lt :
    ∀ (t : List (Nat × Int)) (prev : Int),
      List.Pairwise (fun a b : Nat × Int => a.1 < b.1) t →
      List.Pairwise (fun a b : Nat × Int => a.1 < b.1) (rleGo prev t) := by
  intro t
  induction t with
  | nil => intro prev _; simp [rleGo]
  | cons qe rest ih =>
    intro prev hpw
    obtain ⟨q, e⟩ := qe
    rcases hpw with _ | ⟨hgt, hpw⟩
    rw [show rleGo prev ((q, e) :: rest) = (q, prev + e) :: rleGo (prev + e) rest from rfl]
    refine List.Pairwise.cons ?_ (ih (prev + e) hpw)
    intro y hy
    obtain ⟨z, hz, hyz⟩ := rleGo_mem_fst rest (prev + e) y hy
    rw [hyz]
    exact hgt z hz

theorem rleGo_chain_ne :
    ∀ (t : List (Nat × Int)), (∀ e ∈ t, e.2 ≠ 0) →
      ∀ (prev : Int) (x : Nat),
        List.Chain' (fun a b : Nat × Int => a.2 ≠ b.2) ((x, prev) :: rleGo prev t) := by
  intro t
  induction t with
  | nil => intro _ prev x; simp [rleGo]
  | cons qe rest ih =>
    intro hz prev x
    obtain ⟨q, e⟩ := qe
    have he : e ≠ 0 := hz (q, e) (by simp)
    rw [show rleGo prev ((q, e) :: rest) = (q, prev + e) :: rleGo (prev + e) rest from rfl]
    rw [List.chain'_cons]
    constructor
    · intro hh
      exact he (by omega)
    · exact ih (fun y hy => hz y (by simp [hy])) (prev + e) q

theorem rleOfDeltas_shape (m : List (Nat × Int))
    (hs : List.Pairwise (fun a b : Nat × Int => a.1 < b.1) m)
    (hz : ∀ e ∈ m, e.2 ≠ 0) :
    List.Pairwise (fun a b : Nat × Int => a.1 < b.1) (rleOfDeltas m) ∧
      List.Chain' (fun a b : Nat × Int => a.2 ≠ b.2) (rleOfDeltas m) := by
  cases m with
  | nil =>
    constructor
    · simp [rleOfDeltas]
    · simp [rleOfDeltas]
  | cons pd t =>
    obtain ⟨p, d⟩ := pd
    rcases hs with _ | ⟨hgt, hpw⟩
    by_cases hp : p = 0
    · subst hp
      rw [show rleOfDeltas ((0, d) :: t) = (0, d) :: rleGo d t from by simp [rleOfDeltas]]
      constructor
      · refine List.Pairwise.cons ?_ (rleGo_pairwise_lt t d hpw)
        intro y hy
        obtain ⟨z, hz', hyz⟩ := rleGo_mem_fst t d y hy
        rw [hyz]
        exact hgt z hz'
      · exact rleGo_chain_ne t (fun y hy => hz y (by simp [hy])) d 0
    · rw [show rleOfDeltas ((p, d) :: t) = (0, 0) :: rleGo 0 ((p, d) :: t) from by
        simp [rleOfDeltas, hp]]
      constructor
      · refine List.Pairwise.cons ?_
          (rleGo_pairwise_lt ((p, d) :: t) 0 (List.Pairwise.cons hgt hpw))
        intro y hy
        obtain ⟨z, hz', hyz⟩ := rleGo_mem_fst ((p, d) :: t) 0 y hy
        rw [hyz]
        rcases List.mem_cons.mp hz' with rfl | hz'
        · omega
        · have := hgt z hz'
          omega
      · exact rleGo_chain_ne ((p, d) :: t) hz 0 0

/-- Any lane produced by the finalization walk has strictly increasing
positions and no two consecutive equal depths. -/
theorem collapseFinalLane_shape (l : List (Nat × Int)) :
    List.Pairwise (fun a b : Nat × Int => a.1 < b.1) (collapseFinalLane l) ∧
      List.Chain' (fun a b : Nat × Int => a.2 ≠ b.2) (collapseFinalLane l) := by
  rw [collapseFinalLane_eq]
  exact rleOfDeltas_shape (mergeDeltas l) (mergeDeltas_sorted l) (mergeDeltas_nonzero l)

/-! ## Lane accessor plumbing -/

theorem Chans.get_map (f : α → β) (c : Chans α) (dir : Nat) :
    (Chans.map f c).get dir = f (c.get dir) := by
  rcases dir with _ | _ | dir <;> rfl

theorem Chans.get_zipWith (f : α → β → γ) (a : Chans α) (b : Chans β) (dir : Nat) :
    (Chans.zipWith f a b).get dir = f (a.get dir) (b.get dir) := by
  rcases dir with _ | _ | dir <;> rfl

theorem Chans.get_const (a : α) (dir : Nat) : (Chans.const a).get dir = a := by
  rcases dir with _ | _ | dir <;> rfl

theorem laneOfVec_map (f : List (Nat × Int) → List (Nat × Int)) :
    ∀ (vec : List (List (Nat × Int))) (i : Nat),
      laneOfVec (vec.map f) i = if i < vec.length then f (laneOfVec vec i) else [] := by
  intro vec
  induction vec with
  | nil => intro i; simp [laneOfVec]
  | cons v vs ih =>
    intro i
    cases i with
    | zero => simp [laneOfVec]
    | succ i =>
      simp only [List.map_cons, laneOfVec, List.getD_cons_succ, List.length_cons]
      rw [show List.getD (List.map f vs) i [] = laneOfVec (List.map f vs) i from rfl,
        show List.getD vs i [] = laneOfVec vs i from rfl, ih i]
      by_cases hi : i < vs.length
      · rw [if_pos hi, if_pos (by omega)]
      · rw [if_neg hi, if_neg (by omega)]

theorem laneOfVec_zipWith (f : List (Nat × Int) → List (Nat × Int) → List (Nat × Int)) :
    ∀ (a b : List (List (Nat × Int))) (i : Nat), i < a.length → i < b.length →
      laneOfVec (List.zipWith f a b) i = f (laneOfVec a i) (laneOfVec b i) := by
  intro a
  induction a with
  | nil => intro b i hi _; simp at hi
  | cons x xs ih =>
    intro b i hi hib
    cases b with
    | nil => simp at hib
    | cons y ys =>
      cases i with
      | zero => simp [laneOfVec]
      | succ i =>
        simp only [List.zipWith_cons_cons, laneOfVec, List.getD_cons_succ]
        exact ih ys i (by simpa using hi) (by simpa using hib)

theorem laneOfVec_oob (vec : List (List (Nat × Int))) (i : Nat)
    (h : vec.length ≤ i) : laneOfVec vec i = [] := by
  unfold laneOfVec
  rw [List.getD_eq_default]
  omega

theorem laneOfVec_replicate (n : Nat) (v : List (Nat × Int)) (i : Nat) (h : i < n) :
    laneOfVec (List.replicate n v) i = v := by
  unfold laneOfVec
  rw [List.getD_eq_getElem _ _ (by simpa using h)]
  simp

/-- C2: for every accumulating map, every channel and every chromosome,
the finalized run-length sequence produced by `sort_and_collapse_final`
has strictly increasing positions and no two consecutive entries of equal
depth. -/
theorem finalized_lane_invariants (m : FragmentsMap)
    (hm : m.final_is_sorted = false) (dir i : Nat) :
    List.Pairwise (fun a b : Nat × Int => a.1 < b.1)
        (finalLane (sort_and_collapse_final m) dir i) ∧
      List.Chain' (fun a b : Nat × Int => a.2 ≠ b.2)
        (finalLane (sort_and_collapse_final m) dir i) := by
  unfold sort_and_collapse_final
  rw [if_neg (by simp [hm])]
  unfold finalLane
  rw [show ({ sort_and_collapse_temp m with
        chrName_vec_final :=
          (sort_and_collapse_temp m).chrName_vec_new.map (List.map collapseFinalLane)
        chrName_vec_new :=
          (sort_and_collapse_temp m).chrName_vec_new.map (List.map (fun _ => []))
        final_is_sorted := true } : FragmentsMap).chrName_vec_final
      = (sort_and_collapse_temp m).chrName_vec_new.map (List.map collapseFinalLane) from rfl]
  rw [Chans.get_map, laneOfVec_map]
  by_cases hi : i < ((sort_and_collapse_temp m).chrName_vec_new.get dir).length
  · rw [if_pos hi]
    exact collapseFinalLane_shape _
  · rw [if_neg hi]
    constructor
    · simp
    · simp

/-- Witness instantiating C2 on a freshly initialized one-chromosome map
(hypothesis `final_is_sorted = false` discharged by evaluation). -/
theorem finalized_lane_invariants_witness :
    (initFM 1).final_is_sorted = false ∧
      (List.Pairwise (fun a b : Nat × Int => a.1 < b.1)
          (finalLane (sort_and_collapse_final (initFM 1)) 2 0) ∧
        List.Chain' (fun a b : Nat × Int => a.2 ≠ b.2)
          (finalLane (sort_and_collapse_final (initFM 1)) 2 0)) :=
  ⟨rfl, finalized_lane_invariants (initFM 1) rfl 2 0⟩

theorem laneOfVec_set_self (vec : List (List (Nat × Int))) (c : Nat)
    (x : List (Nat × Int)) (h : c < vec.length) :
    laneOfVec (vec.set c x) c = x := by
  unfold laneOfVec
  rw [List.getD_eq_getElem _ _ (by simpa using h)]
  simp [List.getElem_set_self]

theorem laneOfVec_set_ne (vec : List (List (Nat × Int))) (c i : Nat)
    (x : List (Nat × Int)) (h : c ≠ i) :
    laneOfVec (vec.set c x) i = laneOfVec vec i := by
  unfold laneOfVec
  by_cases hi : i < vec.length
  · rw [List.getD_eq_getElem _ _ (by simpa using hi), List.getD_eq_getElem _ _ hi]
    simp [List.getElem_set_ne h]
  · rw [List.getD_eq_default _ _ (by simpa using hi), List.getD_eq_default _ _ (by omega)]

theorem Chans.get_eq_of_chanIdx (c : Chans α) (d e : Nat)
    (h : chanIdx d = chanIdx e) : c.get d = c.get e := by
  unfold chanIdx at h
  rcases d with _ | _ | d <;> rcases e with _ | _ | e <;> simp at h <;> rfl

theorem Chans.get_modify (c : Chans α) (d : Nat) (f : α → α) (e : Nat) :
    (c.modify d f).get e =
      if chanIdx d = chanIdx e then f (c.get e) else c.get e := by
  unfold chanIdx
  rcases d with _ | _ | d <;> rcases e with _ | _ | e <;>
    simp [Chans.modify, Chans.get] <;> omega

/-! ## Effect of one ingest push on a lane -/

theorem pushTemp_others (d c : Nat) (ev : Nat × Int) (m : FragmentsMap) :
    (pushTemp d c ev m).chrName_vec_new = m.chrName_vec_new ∧
      (pushTemp d c ev m).chrName_vec_final = m.chrName_vec_final ∧
      (pushTemp d c ev m).frag_count = m.frag_count ∧
      (pushTemp d c ev m).final_is_sorted = m.final_is_sorted :=
  ⟨rfl, rfl, rfl, rfl⟩

theorem gs_pushTemp (n : Nat) (m : FragmentsMap) (d c : Nat) (ev : Nat × Int)
    (hgs : GoodShape n m) : GoodShape n (pushTemp d c ev m) := by
  obtain ⟨h1, h2, h3⟩ := hgs
  refine ⟨?_, h2, h3⟩
  intro dir
  show ((m.temp_chrName_vec_new.modify d _).get dir).length = n
  rw [Chans.get_modify]
  by_cases h : chanIdx d = chanIdx dir
  · rw [if_pos h, List.length_set]
    exact h1 dir
  · rw [if_neg h]
    exact h1 dir

theorem tempLane_pushTemp (n : Nat) (m : FragmentsMap) (d c : Nat) (ev : Nat × Int)
    (dir i : Nat) (hgs : GoodShape n m) :
    tempLane (pushTemp d c ev m) dir i =
      if chanIdx d = chanIdx dir ∧ c = i ∧ c < n then tempLane m dir i ++ [ev]
      else tempLane m dir i := by
  obtain ⟨h1, _, _⟩ := hgs
  unfold tempLane pushTemp
  show laneOfVec ((m.temp_chrName_vec_new.modify d _).get dir) i = _
  rw [Chans.get_modify]
  by_cases hch : chanIdx d = chanIdx dir
  · rw [if_pos hch]
    by_cases hci : c = i
    · subst hci
      by_cases hcn : c < n
      · rw [if_pos ⟨hch, rfl, hcn⟩]
        rw [laneOfVec_set_self _ _ _ (by rw [h1 dir]; exact hcn)]
        rw [show (m.temp_chrName_vec_new.get dir).getD c [] = laneOfVec (m.temp_chrName_vec_new.get dir) c from rfl]
      · rw [if_neg (by tauto)]
        rw [List.set_eq_of_length_le (by rw [h1 dir]; omega)]
    · rw [if_neg (by tauto), laneOfVec_set_ne _ _ _ _ hci]
  · rw [if_neg hch, if_neg (by tauto)]

theorem laneNet_pushTemp (n : Nat) (m : FragmentsMap) (d c : Nat) (ev : Nat × Int)
    (dir i x : Nat) (hgs : GoodShape n m) :
    laneNet (pushTemp d c ev m) dir i x =
      laneNet m dir i x +
        (if chanIdx d = chanIdx dir ∧ c = i ∧ c < n then
          (if ev.1 = x then ev.2 else 0) else 0) := by
  unfold laneNet
  rw [show accLane (pushTemp d c ev m) dir i = accLane m dir i from rfl]
  rw [tempLane_pushTemp n m d c ev dir i hgs]
  by_cases h : chanIdx d = chanIdx dir ∧ c = i ∧ c < n
  · rw [if_pos h, if_pos h, ← List.append_assoc, netDelta_append]
    rw [netDelta_cons, netDelta_nil]
    ring
  · rw [if_neg h, if_neg h]
    ring

theorem gs_pushBlock (n : Nat) (m : FragmentsMap) (b : Bool) (c s e : Nat)
    (hgs : GoodShape n m) : GoodShape n (pushBlock b c s e m) :=
  gs_pushTemp n _ 2 c (e, -1)
    (gs_pushTemp n _ 2 c (s, 1)
      (gs_pushTemp n _ (cond b 1 0) c (e, -1)
        (gs_pushTemp n m (cond b 1 0) c (s, 1) hgs)))

theorem laneNet_pushBlock (n : Nat) (m : FragmentsMap) (b : Bool) (c s e dir i x : Nat)
    (hgs : GoodShape n m) :
    laneNet (pushBlock b c s e m) dir i x =
      laneNet m dir i x +
        (if c = i ∧ c < n ∧ (chanIdx dir = cond b 1 0 ∨ chanIdx dir = 2) then
          (if s = x then (1 : Int) else 0) + (if e = x then (-1 : Int) else 0)
        else 0) := by
  have g1 := gs_pushTemp n m (cond b 1 0) c (s, 1) hgs
  have g2 := gs_pushTemp n _ (cond b 1 0) c (e, -1) g1
  have g3 := gs_pushTemp n _ 2 c (s, 1) g2
  unfold pushBlock
  rw [laneNet_pushTemp n _ 2 c (e, -1) dir i x g3,
    laneNet_pushTemp n _ 2 c (s, 1) dir i x g2,
    laneNet_pushTemp n _ (cond b 1 0) c (e, -1) dir i x g1,
    laneNet_pushTemp n m (cond b 1 0) c (s, 1) dir i x hgs]
  have hcb : chanIdx (cond b 1 0) = cond b 1 0 := by cases b <;> rfl
  have hc2 : chanIdx 2 = 2 := rfl
  have hne2 : cond b 1 0 ≠ 2 := by cases b <;> simp
  by_cases hci : c = i
  · by_cases hcn : c < n
    · by_cases h1 : chanIdx dir = cond b 1 0
      · have hA : chanIdx (cond b 1 0) = chanIdx dir ∧ c = i ∧ c < n :=
          ⟨by rw [hcb, h1], hci, hcn⟩
        have hB : ¬(chanIdx 2 = chanIdx dir ∧ c = i ∧ c < n) := by
          rintro ⟨hB, -, -⟩
          rw [hc2] at hB
          rw [← hB] at h1
          exact hne2 h1.symm
        rw [if_pos hA, if_pos hA, if_neg hB, if_neg hB,
          if_pos (show c = i ∧ c < n ∧ (chanIdx dir = cond b 1 0 ∨ chanIdx dir = 2) from
            ⟨hci, hcn, Or.inl h1⟩)]
        ring
      · by_cases h2 : chanIdx dir = 2
        · have hA : ¬(chanIdx (cond b 1 0) = chanIdx dir ∧ c = i ∧ c < n) := by
            rintro ⟨hA, -, -⟩
            rw [hcb, h2] at hA
            exact hne2 hA
          have hB : chanIdx 2 = chanIdx dir ∧ c = i ∧ c < n :=
            ⟨by rw [hc2, h2], hci, hcn⟩
          rw [if_neg hA, if_neg hA, if_pos hB, if_pos hB,
            if_pos (show c = i ∧ c < n ∧ (chanIdx dir = cond b 1 0 ∨ chanIdx dir = 2) from
              ⟨hci, hcn, Or.inr h2⟩)]
          ring
        · have hA : ¬(chanIdx (cond b 1 0) = chanIdx dir ∧ c = i ∧ c < n) := by
            rintro ⟨hA, -, -⟩
            rw [hcb] at hA
            exact h1 hA.symm
          have hB : ¬(chanIdx 2 = chanIdx dir ∧ c = i ∧ c < n) := by
            rintro ⟨hB, -, -⟩
            rw [hc2] at hB
            exact h2 hB.symm
          rw [if_neg hA, if_neg hA, if_neg hB, if_neg hB,
            if_neg (by tauto)]
          ring
    · have hA : ¬(chanIdx (cond b 1 0) = chanIdx dir ∧ c = i ∧ c < n) := by tauto
      have hB : ¬(chanIdx 2 = chanIdx dir ∧ c = i ∧ c < n) := by tauto
      have hT : ¬(c = i ∧ c < n ∧ (chanIdx dir = cond b 1 0 ∨ chanIdx dir = 2)) := by tauto
      rw [if_neg hA, if_neg hA, if_neg hB, if_neg hB, if_neg hT]
      ring
  · have hA : ¬(chanIdx (cond b 1 0) = chanIdx dir ∧ c = i ∧ c < n) := by tauto
    have hB : ¬(chanIdx 2 = chanIdx dir ∧ c = i ∧ c < n) := by tauto
    have hT : ¬(c = i ∧ c < n ∧ (chanIdx dir = cond b 1 0 ∨ chanIdx dir = 2)) := by tauto
    rw [if_neg hA, if_neg hA, if_neg hB, if_neg hB, if_neg hT]
    ring

/-! ## Compaction and ingest preserve the per-lane net delta -/

theorem sort_and_collapse_temp_inv (n : Nat) (m : FragmentsMap)
    (hgs : GoodShape n m) :
    GoodShape n (sort_and_collapse_temp m) ∧
      (sort_and_collapse_temp m).final_is_sorted = m.final_is_sorted ∧
      (sort_and_collapse_temp m).frag_count = m.frag_count ∧
      (sort_and_collapse_temp m).chrName_vec_final = m.chrName_vec_final ∧
      (∀ dir i, tempLane (sort_and_collapse_temp m) dir i = []) ∧
      (∀ dir i x, laneNet (sort_and_collapse_temp m) dir i x = laneNet m dir i x) := by
  obtain ⟨h1, h2, h3⟩ := hgs
  have htemp : ∀ dir i, tempLane (sort_and_collapse_temp m) dir i = [] := by
    intro dir i
    unfold tempLane sort_and_collapse_temp
    show laneOfVec ((m.temp_chrName_vec_new.map (List.map (fun _ => []))).get dir) i = []
    rw [Chans.get_map, laneOfVec_map]
    by_cases hi : i < (m.temp_chrName_vec_new.get dir).length
    · rw [if_pos hi]
    · rw [if_neg hi]
  refine ⟨⟨?_, ?_, ?_⟩, rfl, rfl, rfl, htemp, ?_⟩
  · intro dir
    show ((m.temp_chrName_vec_new.map (List.map (fun _ => []))).get dir).length = n
    rw [Chans.get_map, List.length_map]
    exact h1 dir
  · intro dir
    show ((Chans.zipWith (List.zipWith _) m.chrName_vec_new m.temp_chrName_vec_new).get dir).length = n
    rw [Chans.get_zipWith, List.length_zipWith, h1 dir, h2 dir]
    omega
  · exact h3
  · intro dir i x
    unfold laneNet
    rw [htemp dir i]
    by_cases hi : i < n
    · have hacc : accLane (sort_and_collapse_temp m) dir i =
          if tempLane m dir i = [] then accLane m dir i
          else accLane m dir i ++ collapseTempLane (sortPairs (tempLane m dir i)) := by
        unfold accLane sort_and_collapse_temp
        show laneOfVec ((Chans.zipWith (List.zipWith _) m.chrName_vec_new
          m.temp_chrName_vec_new).get dir) i = _
        rw [Chans.get_zipWith]
        exact laneOfVec_zipWith _ _ _ i (by rw [h2 dir]; exact hi) (by rw [h1 dir]; exact hi)
      rw [hacc]
      by_cases ht : tempLane m dir i = []
      · rw [if_pos ht, ht]
      · rw [if_neg ht, List.append_nil, netDelta_append, netDelta_append,
          netDelta_collapseTempLane, netDelta_sortPairs]
    · have hoob1 : accLane (sort_and_collapse_temp m) dir i = [] := by
        unfold accLane sort_and_collapse_temp
        show laneOfVec ((Chans.zipWith (List.zipWith _) m.chrName_vec_new
          m.temp_chrName_vec_new).get dir) i = _
        rw [Chans.get_zipWith]
        apply laneOfVec_oob
        rw [List.length_zipWith, h1 dir, h2 dir]
        omega
      have hoob2 : accLane m dir i = [] := by
        apply laneOfVec_oob
        rw [h2 dir]
        omega
      have hoob3 : tempLane m dir i = [] := by
        apply laneOfVec_oob
        rw [h1 dir]
        omega
      rw [hoob1, hoob2, hoob3]

theorem foldl_pushBlock_inv (n : Nat) (b : Bool) (c : Nat) :
    ∀ (bs : List (Nat × Nat)) (m : FragmentsMap), GoodShape n m →
      GoodShape n (bs.foldl (fun m se => pushBlock b c se.1 se.2 m) m) ∧
        (bs.foldl (fun m se => pushBlock b c se.1 se.2 m) m).final_is_sorted
          = m.final_is_sorted ∧
        (bs.foldl (fun m se => pushBlock b c se.1 se.2 m) m).frag_count = m.frag_count ∧
        ∀ dir i x,
          laneNet (bs.foldl (fun m se => pushBlock b c se.1 se.2 m) m) dir i x =
            laneNet m dir i x +
              (if c = i ∧ c < n ∧ (chanIdx dir = cond b 1 0 ∨ chanIdx dir = 2) then
                netDelta ((bs.map (fun se => [(se.1, (1 : Int)), (se.2, (-1 : Int))])).flatten) x
              else 0) := by
  intro bs
  induction bs with
  | nil =>
    intro m hgs
    refine ⟨hgs, rfl, rfl, ?_⟩
    intro dir i x
    rw [show ((List.map (fun (se : Nat × Nat) =>
      [(se.1, (1 : Int)), (se.2, (-1 : Int))]) []).flatten) = [] from rfl, netDelta_nil]
    by_cases hC : c = i ∧ c < n ∧ (chanIdx dir = cond b 1 0 ∨ chanIdx dir = 2)
    · rw [if_pos hC]
      show laneNet m dir i x = laneNet m dir i x + 0
      ring
    · rw [if_neg hC]
      show laneNet m dir i x = laneNet m dir i x + 0
      ring
  | cons se rest ih =>
    intro m hgs
    have hgs1 := gs_pushBlock n m b c se.1 se.2 hgs
    obtain ⟨ha, hb, hc', hd⟩ := ih (pushBlock b c se.1 se.2 m) hgs1
    have hflag : (pushBlock b c se.1 se.2 m).final_is_sorted = m.final_is_sorted := rfl
    have hcount : (pushBlock b c se.1 se.2 m).frag_count = m.frag_count := rfl
    refine ⟨ha, by rw [List.foldl_cons]; rw [hb, hflag],
      by rw [List.foldl_cons]; rw [hc', hcount], ?_⟩
    intro dir i x
    rw [List.foldl_cons, hd dir i x, laneNet_pushBlock n m b c se.1 se.2 dir i x hgs]
    rw [show ((List.map (fun (se : Nat × Nat) => [(se.1, (1 : Int)), (se.2, (-1 : Int))])
        (se :: rest)).flatten)
      = [(se.1, (1 : Int)), (se.2, (-1 : Int))] ++
        ((rest.map (fun se => [(se.1, (1 : Int)), (se.2, (-1 : Int))])).flatten) from by
      simp]
    rw [netDelta_append, netDelta_cons, netDelta_cons, netDelta_nil]
    by_cases hC : c = i ∧ c < n ∧ (chanIdx dir = cond b 1 0 ∨ chanIdx dir = 2)
    · rw [if_pos hC, if_pos hC, if_pos hC]
      ring
    · rw [if_neg hC, if_neg hC, if_neg hC]
      ring

theorem ProcessBlocks_inv (n : Nat) (fb : FragmentBlocks) (m : FragmentsMap)
    (hgs : GoodShape n m) :
    GoodShape n (ProcessBlocks fb m) ∧
      (ProcessBlocks fb m).final_is_sorted = m.final_is_sorted ∧
      (ProcessBlocks fb m).frag_count = m.frag_count + 1 ∧
      ∀ dir i x, laneNet (ProcessBlocks fb m) dir i x =
        laneNet m dir i x + fragNet n dir i fb x := by
  obtain ⟨ha, hb, hc', hd⟩ := foldl_pushBlock_inv n fb.direction fb.chr_id (fragBlocks fb) m hgs
  unfold ProcessBlocks
  have hgs2 : GoodShape n { (fragBlocks fb).foldl
      (fun m se => pushBlock fb.direction fb.chr_id se.1 se.2 m) m with
        frag_count := ((fragBlocks fb).foldl
          (fun m se => pushBlock fb.direction fb.chr_id se.1 se.2 m) m).frag_count + 1 } :=
    ha
  by_cases hmod : (((fragBlocks fb).foldl
      (fun m se => pushBlock fb.direction fb.chr_id se.1 se.2 m) m).frag_count + 1)
      % 1000000 = 0
  · rw [if_pos hmod]
    obtain ⟨ga, gb, gc, _, _, gf⟩ := sort_and_collapse_temp_inv n _ hgs2
    refine ⟨ga, by rw [gb]; exact hb, by rw [gc]; exact congrArg (· + 1) hc', ?_⟩
    intro dir i x
    rw [gf dir i x]
    rw [show laneNet { (fragBlocks fb).foldl
      (fun m se => pushBlock fb.direction fb.chr_id se.1 se.2 m) m with
        frag_count := _ + 1 } dir i x
      = laneNet ((fragBlocks fb).foldl
        (fun m se => pushBlock fb.direction fb.chr_id se.1 se.2 m) m) dir i x from rfl]
    rw [hd dir i x]
    rfl
  · rw [if_neg hmod]
    refine ⟨ha, hb, congrArg (· + 1) hc', ?_⟩
    intro dir i x
    rw [show laneNet { (fragBlocks fb).foldl
      (fun m se => pushBlock fb.direction fb.chr_id se.1 se.2 m) m with
        frag_count := _ + 1 } dir i x
      = laneNet ((fragBlocks fb).foldl
        (fun m se => pushBlock fb.direction fb.chr_id se.1 se.2 m) m) dir i x from rfl]
    rw [hd dir i x]
    rfl

/-! ## The ingest invariant along an operation history -/

theorem fragmentsOf_cons_process (fb : FragmentBlocks) (rest : List MapOp) :
    fragmentsOf (.process fb :: rest) = fb :: fragmentsOf rest := rfl

theorem fragmentsOf_cons_compact (rest : List MapOp) :
    fragmentsOf (.compact :: rest) = fragmentsOf rest := rfl

theorem runNet_append (n dir i : Nat) (fbs1 fbs2 : List FragmentBlocks) (x : Nat) :
    runNet n dir i (fbs1 ++ fbs2) x = runNet n dir i fbs1 x + runNet n dir i fbs2 x := by
  simp [runNet]

theorem runNet_perm (n dir i : Nat) {fbs1 fbs2 : List FragmentBlocks}
    (h : fbs1.Perm fbs2) (x : Nat) :
    runNet n dir i fbs1 x = runNet n dir i fbs2 x :=
  List.Perm.sum_eq (h.map _)

theorem initFM_inv (n : Nat) :
    GoodShape n (initFM n) ∧ (initFM n).final_is_sorted = false ∧
      (initFM n).frag_count = 0 ∧
      ∀ dir i x, laneNet (initFM n) dir i x = runNet n dir i [] x := by
  refine ⟨⟨?_, ?_, ?_⟩, rfl, rfl, ?_⟩
  · intro dir
    show ((Chans.const (List.replicate n [((0 : Nat), (0 : Int))])).get dir).length = n
    rw [Chans.get_const, List.length_replicate]
  · intro dir
    show ((Chans.const (List.replicate n [((0 : Nat), (0 : Int))])).get dir).length = n
    rw [Chans.get_const, List.length_replicate]
  · intro dir
    show ((Chans.const (List.replicate n [((0 : Nat), (0 : Int))])).get dir).length = n
    rw [Chans.get_const, List.length_replicate]
  · intro dir i x
    unfold laneNet accLane tempLane
    show netDelta (laneOfVec ((Chans.const (List.replicate n [((0 : Nat), (0 : Int))])).get dir) i
      ++ laneOfVec ((Chans.const (List.replicate n [((0 : Nat), (0 : Int))])).get dir) i) x = _
    rw [Chans.get_const]
    have hz : runNet n dir i [] x = 0 := rfl
    rw [hz]
    by_cases hi : i < n
    · rw [laneOfVec_replicate n _ i hi]
      rw [show ([((0 : Nat), (0 : Int))] ++ [((0 : Nat), (0 : Int))])
        = [((0 : Nat), (0 : Int)), ((0 : Nat), (0 : Int))] from rfl]
      rw [netDelta_cons, netDelta_cons, netDelta_nil]
      by_cases h0 : (0 : Nat) = x
      · simp [h0]
      · simp [h0]
    · rw [laneOfVec_oob _ _ (by rw [List.length_replicate]; omega)]
      rfl

theorem foldl_applyOp_inv (n : Nat) :
    ∀ (ops : List MapOp) (m : FragmentsMap) (fbs : List FragmentBlocks),
      GoodShape n m → m.final_is_sorted = false → m.frag_count = fbs.length →
      (∀ dir i x, laneNet m dir i x = runNet n dir i fbs x) →
      GoodShape n (ops.foldl applyOp m) ∧
        (ops.foldl applyOp m).final_is_sorted = false ∧
        (ops.foldl applyOp m).frag_count = (fbs ++ fragmentsOf ops).length ∧
        ∀ dir i x, laneNet (ops.foldl applyOp m) dir i x
          = runNet n dir i (fbs ++ fragmentsOf ops) x := by
  intro ops
  induction ops with
  | nil =>
    intro m fbs hgs hf hc hl
    refine ⟨hgs, hf, ?_, ?_⟩
    · rw [show fragmentsOf [] = [] from rfl, List.append_nil]
      exact hc
    · intro dir i x
      rw [show fragmentsOf [] = [] from rfl, List.append_nil]
      exact hl dir i x
  | cons op rest ih =>
    intro m fbs hgs hf hc hl
    cases op with
    | process fb =>
      obtain ⟨ga, gb, gc, gd⟩ := ProcessBlocks_inv n fb m hgs
      have hstep := ih (ProcessBlocks fb m) (fbs ++ [fb]) ga
        (by rw [gb]; exact hf)
        (by rw [gc, hc]; simp)
        (fun dir i x => by
          rw [gd dir i x, hl dir i x, runNet_append]
          rw [show runNet n dir i [fb] x = fragNet n dir i fb x + 0 from rfl]
          ring)
      rw [show (MapOp.process fb :: rest).foldl applyOp m
        = rest.foldl applyOp (ProcessBlocks fb m) from rfl] at *
      refine ⟨hstep.1, hstep.2.1, ?_, ?_⟩
      · rw [hstep.2.2.1, fragmentsOf_cons_process]
        simp
      · intro dir i x
        rw [hstep.2.2.2 dir i x, fragmentsOf_cons_process]
        rw [show fbs ++ fb :: fragmentsOf rest = (fbs ++ [fb]) ++ fragmentsOf rest from by
          simp]
    | compact =>
      obtain ⟨ga, gb, gc, _, _, gf⟩ := sort_and_collapse_temp_inv n m hgs
      have hstep := ih (sort_and_collapse_temp m) fbs ga
        (by rw [gb]; exact hf)
        (by rw [gc]; exact hc)
        (fun dir i x => by rw [gf dir i x]; exact hl dir i x)
      rw [show (MapOp.compact :: rest).foldl applyOp m
        = rest.foldl applyOp (sort_and_collapse_temp m) from rfl] at *
      exact ⟨hstep.1, hstep.2.1, by rw [hstep.2.2.1, fragmentsOf_cons_compact],
        fun dir i x => by rw [hstep.2.2.2 dir i x, fragmentsOf_cons_compact]⟩

theorem runOps_inv (n : Nat) (ops : List MapOp) :
    GoodShape n (runOps n ops) ∧
      (runOps n ops).final_is_sorted = false ∧
      (runOps n ops).frag_count = (fragmentsOf ops).length ∧
      ∀ dir i x, laneNet (runOps n ops) dir i x = runNet n dir i (fragmentsOf ops) x := by
  obtain ⟨ia, ib, ic, id⟩ := initFM_inv n
  obtain ⟨ha, hb, hc', hd⟩ := foldl_applyOp_inv n ops (initFM n) [] ia ib ic id
  refine ⟨ha, hb, ?_, ?_⟩
  · show (List.foldl applyOp (initFM n) ops).frag_count = _
    rw [hc']
    simp
  · intro dir i x
    show laneNet (List.foldl applyOp (initFM n) ops) dir i x = _
    rw [hd dir i x]
    simp

/-! ## Merge of two accumulating maps -/

theorem Combine_inv (n : Nat) (A B : FragmentsMap)
    (hA : GoodShape n A) (hB : GoodShape n B)
    (hfa : A.final_is_sorted = false) (hfb : B.final_is_sorted = false) :
    GoodShape n (Combine A B) ∧ (Combine A B).final_is_sorted = false ∧
      ∀ dir i x, laneNet (Combine A B) dir i x = laneNet A dir i x + laneNet B dir i x := by
  obtain ⟨a1, a2, a3, a4, a5, a6⟩ := sort_and_collapse_temp_inv n A hA
  obtain ⟨b1, b2, b3, b4, b5, b6⟩ := sort_and_collapse_temp_inv n B hB
  obtain ⟨a11, a12, a13⟩ := a1
  obtain ⟨b11, b12, b13⟩ := b1
  unfold Combine
  rw [if_pos ⟨by rw [a2]; exact hfa, by rw [b2]; exact hfb⟩]
  refine ⟨⟨a11, ?_, a13⟩, by rw [show ({ sort_and_collapse_temp A with
      chrName_vec_new := Chans.zipWith (List.zipWith (· ++ ·))
        (sort_and_collapse_temp A).chrName_vec_new
        (sort_and_collapse_temp B).chrName_vec_new } : FragmentsMap).final_is_sorted
    = (sort_and_collapse_temp A).final_is_sorted from rfl, a2]; exact hfa, ?_⟩
  · intro dir
    show ((Chans.zipWith (List.zipWith (· ++ ·))
      (sort_and_collapse_temp A).chrName_vec_new
      (sort_and_collapse_temp B).chrName_vec_new).get dir).length = n
    rw [Chans.get_zipWith, List.length_zipWith, a12 dir, b12 dir]
    omega
  · intro dir i x
    rw [← a6 dir i x, ← b6 dir i x]
    unfold laneNet
    rw [show tempLane { sort_and_collapse_temp A with
      chrName_vec_new := Chans.zipWith (List.zipWith (· ++ ·))
        (sort_and_collapse_temp A).chrName_vec_new
        (sort_and_collapse_temp B).chrName_vec_new } dir i
      = tempLane (sort_and_collapse_temp A) dir i from rfl,
      a5 dir i, b5 dir i, List.append_nil, List.append_nil, List.append_nil]
    have hacc : accLane { sort_and_collapse_temp A with
        chrName_vec_new := Chans.zipWith (List.zipWith (· ++ ·))
          (sort_and_collapse_temp A).chrName_vec_new
          (sort_and_collapse_temp B).chrName_vec_new } dir i
        = laneOfVec (List.zipWith (· ++ ·)
            ((sort_and_collapse_temp A).chrName_vec_new.get dir)
            ((sort_and_collapse_temp B).chrName_vec_new.get dir)) i := by
      unfold accLane
      rw [show ({ sort_and_collapse_temp A with
        chrName_vec_new := Chans.zipWith (List.zipWith (· ++ ·))
          (sort_and_collapse_temp A).chrName_vec_new
          (sort_and_collapse_temp B).chrName_vec_new } : FragmentsMap).chrName_vec_new
        = Chans.zipWith (List.zipWith (· ++ ·))
          (sort_and_collapse_temp A).chrName_vec_new
          (sort_and_collapse_temp B).chrName_vec_new from rfl, Chans.get_zipWith]
    rw [hacc]
    by_cases hi : i < n
    · rw [laneOfVec_zipWith _ _ _ i (by rw [a12 dir]; exact hi) (by rw [b12 dir]; exact hi)]
      rw [netDelta_append]
      rfl
    · unfold accLane
      rw [laneOfVec_oob _ _ (by rw [List.length_zipWith, a12 dir, b12 dir]; omega),
        laneOfVec_oob _ _ (by rw [a12 dir]; omega),
        laneOfVec_oob _ _ (by rw [b12 dir]; omega)]
      rfl

/-! ## Finalization is determined by the per-lane net deltas -/

theorem Chans.eq_of_get (a b : Chans α)
    (h0 : a.get 0 = b.get 0) (h1 : a.get 1 = b.get 1) (h2 : a.get 2 = b.get 2) :
    a = b := by
  cases a
  cases b
  simp [Chans.get] at h0 h1 h2
  rw [h0, h1, h2]

theorem laneOfVec_eq_getElem (vec : List (List (Nat × Int))) (i : Nat)
    (h : i < vec.length) : laneOfVec vec i = vec[i] := by
  unfold laneOfVec
  rw [List.getD_eq_getElem _ _ (by simpa using h)]

theorem sort_and_collapse_final_vec_eq (n : Nat) (m₁ m₂ : FragmentsMap)
    (h1 : GoodShape n m₁) (h2 : GoodShape n m₂)
    (hf1 : m₁.final_is_sorted = false) (hf2 : m₂.final_is_sorted = false)
    (hnet : ∀ dir i x, laneNet m₁ dir i x = laneNet m₂ dir i x) :
    (sort_and_collapse_final m₁).chrName_vec_final
      = (sort_and_collapse_final m₂).chrName_vec_final := by
  obtain ⟨a1, _, _, _, a5, a6⟩ := sort_and_collapse_temp_inv n m₁ h1
  obtain ⟨b1, _, _, _, b5, b6⟩ := sort_and_collapse_temp_inv n m₂ h2
  obtain ⟨_, a12, _⟩ := a1
  obtain ⟨_, b12, _⟩ := b1
  unfold sort_and_collapse_final
  rw [if_neg (by simp [hf1]), if_neg (by simp [hf2])]
  show Chans.map (List.map collapseFinalLane) (sort_and_collapse_temp m₁).chrName_vec_new
    = Chans.map (List.map collapseFinalLane) (sort_and_collapse_temp m₂).chrName_vec_new
  have hlane : ∀ dir i x,
      netDelta (accLane (sort_and_collapse_temp m₁) dir i) x
        = netDelta (accLane (sort_and_collapse_temp m₂) dir i) x := by
    intro dir i x
    have ha := a6 dir i x
    have hb := b6 dir i x
    unfold laneNet at ha hb
    rw [a5 dir i, List.append_nil] at ha
    rw [b5 dir i, List.append_nil] at hb
    rw [ha, hb]
    exact hnet dir i x
  have hcomp : ∀ dir : Nat,
      List.map collapseFinalLane ((sort_and_collapse_temp m₁).chrName_vec_new.get dir)
        = List.map collapseFinalLane ((sort_and_collapse_temp m₂).chrName_vec_new.get dir) := by
    intro dir
    apply List.ext_getElem
    · rw [List.length_map, List.length_map, a12 dir, b12 dir]
    · intro i hi1 hi2
      rw [List.length_map, a12 dir] at hi1
      rw [List.getElem_map, List.getElem_map]
      apply collapseFinalLane_congr
      intro x
      have := hlane dir i x
      unfold accLane at this
      rw [laneOfVec_eq_getElem _ i (by rw [a12 dir]; exact hi1),
        laneOfVec_eq_getElem _ i (by rw [b12 dir]; exact hi1)] at this
      exact this
  apply Chans.eq_of_get
  · rw [Chans.get_map, Chans.get_map]
    exact hcomp 0
  · rw [Chans.get_map, Chans.get_map]
    exact hcomp 1
  · rw [Chans.get_map, Chans.get_map]
    exact hcomp 2

/-! ## C1: merging two accumulating maps commutes with direct ingest -/

/-- C1: maps built by any two ingest histories (never finalized, hence
still accumulating) and merged by `Combine` — which concatenates their
accumulated-delta buffers — finalize, for every channel and chromosome,
to exactly the run-length sequences of a single map that ingested the
union (any permutation) of both fragment sets. -/
theorem combine_then_finalize_eq (n : Nat) (opsA opsB opsC : List MapOp)
    (hperm : (fragmentsOf opsC).Perm (fragmentsOf opsA ++ fragmentsOf opsB)) :
    (sort_and_collapse_final (Combine (runOps n opsA) (runOps n opsB))).chrName_vec_final
        = (sort_and_collapse_final (runOps n opsC)).chrName_vec_final ∧
      ∀ dir i,
        finalLane (sort_and_collapse_final (Combine (runOps n opsA) (runOps n opsB))) dir i
          = finalLane (sort_and_collapse_final (runOps n opsC)) dir i := by
  obtain ⟨ga, gfa, _, gna⟩ := runOps_inv n opsA
  obtain ⟨gb, gfb, _, gnb⟩ := runOps_inv n opsB
  obtain ⟨gc, gfc, _, gnc⟩ := runOps_inv n opsC
  obtain ⟨gab, gfab, gnab⟩ := Combine_inv n _ _ ga gb gfa gfb
  have hvec : (sort_and_collapse_final (Combine (runOps n opsA) (runOps n opsB))).chrName_vec_final
      = (sort_and_collapse_final (runOps n opsC)).chrName_vec_final := by
    apply sort_and_collapse_final_vec_eq n _ _ gab gc gfab gfc
    intro dir i x
    rw [gnab dir i x, gna dir i x, gnb dir i x, gnc dir i x, ← runNet_append]
    exact (runNet_perm n dir i hperm x).symm
  exact ⟨hvec, fun dir i => by unfold finalLane; rw [hvec]⟩

/-- Witness for C1: two single-fragment maps, merged and finalized, versus
direct ingest of both fragments. -/
theorem combine_then_finalize_eq_witness :
    (fragmentsOf [MapOp.process ⟨[10], [[0]], [[5]], false, 0⟩,
        MapOp.process ⟨[12], [[0]], [[6]], true, 0⟩]).Perm
      (fragmentsOf [MapOp.process ⟨[10], [[0]], [[5]], false, 0⟩] ++
        fragmentsOf [MapOp.process ⟨[12], [[0]], [[6]], true, 0⟩]) ∧
    (sort_and_collapse_final (Combine
        (runOps 1 [MapOp.process ⟨[10], [[0]], [[5]], false, 0⟩])
        (runOps 1 [MapOp.process ⟨[12], [[0]], [[6]], true, 0⟩]))).chrName_vec_final
      = (sort_and_collapse_final (runOps 1
          [MapOp.process ⟨[10], [[0]], [[5]], false, 0⟩,
            MapOp.process ⟨[12], [[0]], [[6]], true, 0⟩])).chrName_vec_final :=
  ⟨List.Perm.refl _,
    (combine_then_finalize_eq 1
      [MapOp.process ⟨[10], [[0]], [[5]], false, 0⟩]
      [MapOp.process ⟨[12], [[0]], [[6]], true, 0⟩]
      [MapOp.process ⟨[10], [[0]], [[5]], false, 0⟩,
        MapOp.process ⟨[12], [[0]], [[6]], true, 0⟩]
      (List.Perm.refl _)).1⟩

/-! ## C3: compaction placement is observationally invisible -/

theorem map_const_nil (v : List (List (Nat × Int))) :
    v.map (fun _ => ([] : List (Nat × Int))) = List.replicate v.length [] := by
  induction v with
  | nil => rfl
  | cons x xs ih => simp [ih, List.replicate_succ]

theorem FragmentsMap.eq_of_fields (m1 m2 : FragmentsMap)
    (h1 : m1.temp_chrName_vec_new = m2.temp_chrName_vec_new)
    (h2 : m1.chrName_vec_new = m2.chrName_vec_new)
    (h3 : m1.chrName_vec_final = m2.chrName_vec_final)
    (h4 : m1.frag_count = m2.frag_count)
    (h5 : m1.final_is_sorted = m2.final_is_sorted) : m1 = m2 := by
  cases m1
  cases m2
  simp only [FragmentsMap.mk.injEq]
  exact ⟨h1, h2, h3, h4, h5⟩

/-- C3: two ingest histories over the same fragment sequence — however
the periodic compactions are interleaved, from after every fragment to
never — finalize to identical `FragmentsMap` states, and in particular
answer every histogram query identically. -/
theorem compaction_observational_eq (n : Nat) (opsA opsB : List MapOp)
    (h : fragmentsOf opsA = fragmentsOf opsB) :
    sort_and_collapse_final (runOps n opsA) = sort_and_collapse_final (runOps n opsB) ∧
      ∀ (hist : Hist) (s e dir refID : Nat),
        updateCoverageHist (sort_and_collapse_final (runOps n opsA)) hist s e dir refID
          = updateCoverageHist (sort_and_collapse_final (runOps n opsB)) hist s e dir refID := by
  obtain ⟨ga, gfa, gca, gna⟩ := runOps_inv n opsA
  obtain ⟨gb, gfb, gcb, gnb⟩ := runOps_inv n opsB
  obtain ⟨ga1, _, ga3, _, _, _⟩ := sort_and_collapse_temp_inv n (runOps n opsA) ga
  obtain ⟨gb1, _, gb3, _, _, _⟩ := sort_and_collapse_temp_inv n (runOps n opsB) gb
  have hvec := sort_and_collapse_final_vec_eq n _ _ ga gb gfa gfb
    (fun dir i x => by rw [gna dir i x, gnb dir i x, h])
  have hmain : sort_and_collapse_final (runOps n opsA)
      = sort_and_collapse_final (runOps n opsB) := by
    apply FragmentsMap.eq_of_fields
    · rw [show (sort_and_collapse_final (runOps n opsA)).temp_chrName_vec_new
        = Chans.map (List.map (fun _ => []))
          (runOps n opsA).temp_chrName_vec_new from by
        unfold sort_and_collapse_final
        rw [if_neg (by simp [gfa])]
        try rfl]
      rw [show (sort_and_collapse_final (runOps n opsB)).temp_chrName_vec_new
        = Chans.map (List.map (fun _ => []))
          (runOps n opsB).temp_chrName_vec_new from by
        unfold sort_and_collapse_final
        rw [if_neg (by simp [gfb])]
        try rfl]
      apply Chans.eq_of_get
      · rw [Chans.get_map, Chans.get_map, map_const_nil, map_const_nil,
          ga.1 0, gb.1 0]
      · rw [Chans.get_map, Chans.get_map, map_const_nil, map_const_nil,
          ga.1 1, gb.1 1]
      · rw [Chans.get_map, Chans.get_map, map_const_nil, map_const_nil,
          ga.1 2, gb.1 2]
    · rw [show (sort_and_collapse_final (runOps n opsA)).chrName_vec_new
        = Chans.map (List.map (fun _ => []))
          (sort_and_collapse_temp (runOps n opsA)).chrName_vec_new from by
        unfold sort_and_collapse_final
        rw [if_neg (by simp [gfa])]
        try rfl]
      rw [show (sort_and_collapse_final (runOps n opsB)).chrName_vec_new
        = Chans.map (List.map (fun _ => []))
          (sort_and_collapse_temp (runOps n opsB)).chrName_vec_new from by
        unfold sort_and_collapse_final
        rw [if_neg (by simp [gfb])]
        try rfl]
      apply Chans.eq_of_get
      · rw [Chans.get_map, Chans.get_map, map_const_nil, map_const_nil,
          ga1.2.1 0, gb1.2.1 0]
      · rw [Chans.get_map, Chans.get_map, map_const_nil, map_const_nil,
          ga1.2.1 1, gb1.2.1 1]
      · rw [Chans.get_map, Chans.get_map, map_const_nil, map_const_nil,
          ga1.2.1 2, gb1.2.1 2]
    · exact hvec
    · rw [show (sort_and_collapse_final (runOps n opsA)).frag_count
        = (sort_and_collapse_temp (runOps n opsA)).frag_count from by
        unfold sort_and_collapse_final
        rw [if_neg (by simp [gfa])]
        try rfl]
      rw [show (sort_and_collapse_final (runOps n opsB)).frag_count
        = (sort_and_collapse_temp (runOps n opsB)).frag_count from by
        unfold sort_and_collapse_final
        rw [if_neg (by simp [gfb])]
        try rfl]
      rw [ga3, gb3, gca, gcb, h]
    · rw [show (sort_and_collapse_final (runOps n opsA)).final_is_sorted = true from by
        unfold sort_and_collapse_final
        rw [if_neg (by simp [gfa])]
        try rfl]
      rw [show (sort_and_collapse_final (runOps n opsB)).final_is_sorted = true from by
        unfold sort_and_collapse_final
        rw [if_neg (by simp [gfb])]
        try rfl]
  exact ⟨hmain, fun hist s e dir refID => by rw [hmain]⟩

/-- Witness for C3: compacting after the only fragment versus never
compacting. -/
theorem compaction_observational_eq_witness :
    fragmentsOf [MapOp.process ⟨[10], [[0]], [[5]], false, 0⟩, MapOp.compact]
        = fragmentsOf [MapOp.process ⟨[10], [[0]], [[5]], false, 0⟩] ∧
      sort_and_collapse_final (runOps 1
          [MapOp.process ⟨[10], [[0]], [[5]], false, 0⟩, MapOp.compact])
        = sort_and_collapse_final (runOps 1
            [MapOp.process ⟨[10], [[0]], [[5]], false, 0⟩]) :=
  ⟨rfl,
    (compaction_observational_eq 1
      [MapOp.process ⟨[10], [[0]], [[5]], false, 0⟩, MapOp.compact]
      [MapOp.process ⟨[10], [[0]], [[5]], false, 0⟩] rfl).1⟩

/-! ## C7: `Combine` after finalization proceeds silently and corrupts -/

/-- C7 (code bug evidence): finalize a one-fragment map, then `Combine` it
with another finalized map. No error path exists: the call silently
concatenates the two finalized run-length buffers (absolute depths, not
deltas) and clears `final_is_sorted`; the next finalization rebuilds from
the now-empty delta buffers and discards all coverage, leaving the
placeholder `[(0,0)]` where the true merged map has depth 2 over
`[10,15)`. -/
theorem combine_after_finalize_silently_corrupts :
    (sort_and_collapse_final (runOps 1
        [MapOp.process ⟨[10], [[0]], [[5]], false, 0⟩])).final_is_sorted = true ∧
      (Combine
          (sort_and_collapse_final (runOps 1
            [MapOp.process ⟨[10], [[0]], [[5]], false, 0⟩]))
          (sort_and_collapse_final (runOps 1
            [MapOp.process ⟨[10], [[0]], [[5]], false, 0⟩]))).final_is_sorted = false ∧
      finalLane (Combine
          (sort_and_collapse_final (runOps 1
            [MapOp.process ⟨[10], [[0]], [[5]], false, 0⟩]))
          (sort_and_collapse_final (runOps 1
            [MapOp.process ⟨[10], [[0]], [[5]], false, 0⟩]))) 2 0
        = [(0, 0), (10, 1), (15, 0), (0, 0), (10, 1), (15, 0)] ∧
      finalLane (sort_and_collapse_final (Combine
          (sort_and_collapse_final (runOps 1
            [MapOp.process ⟨[10], [[0]], [[5]], false, 0⟩]))
          (sort_and_collapse_final (runOps 1
            [MapOp.process ⟨[10], [[0]], [[5]], false, 0⟩])))) 2 0
        = [(0, 0)] ∧
      finalLane (sort_and_collapse_final (runOps 1
          [MapOp.process ⟨[10], [[0]], [[5]], false, 0⟩,
            MapOp.process ⟨[10], [[0]], [[5]], false, 0⟩])) 2 0
        = [(0, 0), (10, 2), (15, 0)] := by
  refine ⟨rfl, rfl, rfl, rfl, rfl⟩

/-! ## C4: a histogram query adds exactly `end - start` bases -/

theorem get_eq_getD (lane : List (Nat × Int)) (i : Nat) (h : i < lane.length) :
    lane.get ⟨i, h⟩ = lane.getD i (0, 0) := by
  rw [List.getD_eq_getElem _ _ (by simpa using h), List.get_eq_getElem]

theorem advanceGo_gt (lane : List (Nat × Int)) (cursor : Nat) :
    ∀ (fuel idx : Nat), lane.length - idx ≤ fuel →
      advanceGo lane cursor idx fuel < lane.length →
      cursor < (lane.getD (advanceGo lane cursor idx fuel) (0, 0)).1 := by
  intro fuel
  induction fuel with
  | zero =>
    intro idx hle h
    rw [show advanceGo lane cursor idx 0 = idx from rfl] at h
    omega
  | succ fuel ih =>
    intro idx hle h
    rw [show advanceGo lane cursor idx (fuel + 1)
      = if h' : idx < lane.length then
          (if (lane.get ⟨idx, h'⟩).1 ≤ cursor then advanceGo lane cursor (idx + 1) fuel
            else idx)
        else idx from rfl] at h ⊢
    by_cases hlt : idx < lane.length
    · rw [dif_pos hlt] at h ⊢
      by_cases hc : (lane.get ⟨idx, hlt⟩).1 ≤ cursor
      · rw [if_pos hc] at h ⊢
        exact ih (idx + 1) (by omega) h
      · rw [if_neg hc] at h ⊢
        rw [← get_eq_getD lane idx hlt]
        omega
    · rw [dif_neg hlt] at h
      omega

theorem covWalkGo_total :
    ∀ (fuel : Nat) (lane : List (Nat × Int)) (endPos : Nat) (hist : Hist)
      (idx : Nat) (depth : Int) (cursor : Nat),
      endPos - cursor ≤ fuel →
      histTotal (covWalkGo lane endPos fuel hist idx depth cursor)
        = histTotal hist + (endPos - cursor) := by
  intro fuel
  induction fuel with
  | zero =>
    intro lane endPos hist idx depth cursor hle
    rw [show covWalkGo lane endPos 0 hist idx depth cursor = hist from rfl]
    omega
  | succ fuel ih =>
    intro lane endPos hist idx depth cursor hle
    rw [show covWalkGo lane endPos (fuel + 1) hist idx depth cursor
      = if cursor < endPos then
          (if h : advanceGo lane cursor idx (lane.length - idx) < lane.length then
            covWalkGo lane endPos fuel
              (histAdd hist (uintCast depth)
                (min (lane.get ⟨advanceGo lane cursor idx (lane.length - idx), h⟩).1 endPos
                  - cursor))
              (advanceGo lane cursor idx (lane.length - idx))
              (lane.get ⟨advanceGo lane cursor idx (lane.length - idx), h⟩).2
              (lane.get ⟨advanceGo lane cursor idx (lane.length - idx), h⟩).1
          else histAdd hist (uintCast depth) (endPos - cursor))
        else hist from rfl]
    by_cases hc : cursor < endPos
    · rw [if_pos hc]
      by_cases hidx : advanceGo lane cursor idx (lane.length - idx) < lane.length
      · rw [dif_pos hidx]
        have hgt := advanceGo_gt lane cursor (lane.length - idx) idx (le_refl _) hidx
        rw [← get_eq_getD lane _ hidx] at hgt
        rw [ih lane endPos _ _ _ _ (by omega), histTotal_histAdd]
        omega
      · rw [dif_neg hidx, histTotal_histAdd]
    · rw [if_neg hc]
      omega

theorem updateCoverageHistLane_total (lane : List (Nat × Int)) (hist : Hist)
    (s e : Nat) :
    histTotal (updateCoverageHistLane lane hist s e) = histTotal hist + (e - s) := by
  unfold updateCoverageHistLane
  by_cases hub : (lane.takeWhile fun pd => pd.1 ≤ s).length = lane.length
  · rw [if_pos hub, histTotal_histAdd]
  · rw [if_neg hub]
    exact covWalkGo_total (e - s) lane e hist _ _ s (le_refl _)

/-- C4: on an in-range chromosome, one `updateCoverageHist` call with
`start < end` increases the total histogram count by exactly
`end - start`, for any finalized lane content and any prior histogram. -/
theorem updateCoverageHist_total (m : FragmentsMap) (hist : Hist)
    (s e dir refID : Nat)
    (hr : refID < (m.chrName_vec_final.get dir).length) (hse : s < e) :
    histTotal (updateCoverageHist m hist s e dir refID)
      = histTotal hist + (e - s) := by
  unfold updateCoverageHist
  rw [if_neg (by omega)]
  exact updateCoverageHistLane_total _ hist s e

/-- Witness for C4 on a freshly initialized map. -/
theorem updateCoverageHist_total_witness :
    0 < ((initFM 1).chrName_vec_final.get 2).length ∧ 3 < 9 ∧
      histTotal (updateCoverageHist (initFM 1) [] 3 9 2 0) = histTotal [] + (9 - 3) :=
  ⟨by decide, by decide, updateCoverageHist_total (initFM 1) [] 3 9 2 0 (by decide) (by decide)⟩

/-! ## C5: queries against missing chromosome data -/

theorem takeWhile_length_of_all (p : Nat × Int → Bool) :
    ∀ (lane : List (Nat × Int)), (∀ pd ∈ lane, p pd = true) →
      (lane.takeWhile p).length = lane.length := by
  intro lane
  induction lane with
  | nil => intro _; rfl
  | cons pd rest ih =>
    intro hall
    rw [List.takeWhile_cons, if_pos (hall pd (by simp))]
    simp [ih (fun y hy => hall y (by simp [hy]))]

/-- C5 counterexample: querying `[0,10)` on a refID one past the
per-chromosome array (a chromosome name absent from the registry is given
`refID = chrs.size()` by `WriteOutput`) only inserts a zero entry: the
depth-0 bin stays 0 instead of gaining `end - start = 10`, and the total
count does not change. -/
theorem missing_chromosome_counterexample :
    updateCoverageHist (initFM 1) [] 0 10 2 1 = [(0, 0)] ∧
      histGet (updateCoverageHist (initFM 1) [] 0 10 2 1) 0 = 0 ∧
      histTotal (updateCoverageHist (initFM 1) [] 0 10 2 1) = 0 := by
  refine ⟨rfl, rfl, rfl⟩

/-- C5 amended: a query whose `refID` lies outside the finalized
per-chromosome array returns after `hist.insert({0,0})` — it adds no
count at all, only guaranteeing a depth-0 key exists; a query on an
in-range chromosome with no finalized segment past `start` (in particular
the placeholder no-data lane `[(0,0)]`) adds the whole `end - start` to
the depth-0 bin. Neither case is an error. -/
theorem missing_chromosome_behaviour (m : FragmentsMap) (hist : Hist)
    (s e dir refID : Nat)
    (hs : List.Pairwise (fun a b : Nat × Nat => a.1 < b.1) hist) :
    (refID ≥ (m.chrName_vec_final.get dir).length →
      updateCoverageHist m hist s e dir refID = histAdd hist 0 0 ∧
        histTotal (updateCoverageHist m hist s e dir refID) = histTotal hist) ∧
      (refID < (m.chrName_vec_final.get dir).length →
        (∀ pd ∈ finalLane m dir refID, pd.1 ≤ s) →
        histGet (updateCoverageHist m hist s e dir refID) 0
          = histGet hist 0 + (e - s)) := by
  constructor
  · intro hge
    unfold updateCoverageHist
    rw [if_pos hge]
    exact ⟨rfl, by rw [histTotal_histAdd]; omega⟩
  · intro hlt hall
    unfold updateCoverageHist
    rw [if_neg (by omega)]
    unfold updateCoverageHistLane
    rw [if_pos (takeWhile_length_of_all _ (finalLane m dir refID)
      (fun pd hpd => by simpa using hall pd hpd))]
    exact histGet_histAdd_same hist 0 (e - s) hs

/-- Witness for the amended C5: both branches exercised on a fresh
one-chromosome map. -/
theorem missing_chromosome_behaviour_witness :
    (updateCoverageHist (initFM 1) [] 0 10 2 1 = histAdd [] 0 0 ∧
        histTotal (updateCoverageHist (initFM 1) [] 0 10 2 1) = histTotal []) ∧
      histGet (updateCoverageHist (initFM 1) [] 0 10 2 0) 0
        = histGet [] 0 + (10 - 0) :=
  ⟨(missing_chromosome_behaviour (initFM 1) [] 0 10 2 1 (by decide)).1 (by decide),
    (missing_chromosome_behaviour (initFM 1) [] 0 10 2 0 (by decide)).2
      (by decide) (by decide)⟩
